import Mathlib

/-!
Verification model of the `docfind` repository (a WebAssembly-deployable
full-text search index), shallowly embedded in Lean 4.

Source layout:
* `src/core/src/lib.rs` — `FsstStrVec`, `Document`, `Index`, `build_index`, `search`
* `src/cli/src/main.rs` — WebAssembly module assembly (memory growth, data-segment patching)

Modelling conventions:
* Rust `String`s are Lean `String`s; where the source works on raw UTF-8
  bytes (the FSST column, byte-lexicographic comparisons, byte lengths) we
  use an explicit UTF-8 encoder `strBytes` over `Byte := Fin 256`.
* Machine integers are `Nat` (or `Int` for Rust `i32` values), with explicit
  wrapping (`% 2^32`) where the source casts can wrap.
* Non-NaN `f64` scores are modelled as `ℚ`: the claims under verification
  all assume scores are non-NaN, and the non-NaN floats form a linear order
  which `ℚ` represents faithfully for the order-theoretic and truncation
  facts proved here.
* The external crates (`fsst`, `fst`, `rake`) are consumed as black boxes by
  the source; they are modelled by their documented contracts: the FSST
  compressor is a parameter bundled with its symbol table, the RAKE
  extractor is a function parameter `String → List (String × ℚ)`, the
  stop-word set (the `english.stop` asset, not part of the source tree) is a
  list parameter, and the FST map is modelled by its logical content, a
  lexicographically sorted association list `List (String × Nat)`.
* Rust's stable `Vec::sort_by` is modelled by stable insertion sort
  (`stableSortBy`); any stable sort produces the same, uniquely determined,
  output list for a given comparator.
* Rust hash containers have unspecified iteration order; wherever the
  source iterates one, the model either takes the order as an explicit
  parameter (query words in `search`) or fixes a canonical order that is
  provably immaterial to the observable result (first-occurrence order for
  key/dedup sets, with the final key order canonicalised by sorting).
* The Unicode character classes (`char::is_alphanumeric`,
  `char::to_lowercase`, `char::is_whitespace`) are modelled over ASCII.
  No universally quantified theorem below depends on the contents of these
  character tables: the statements quantify over the structure of the
  transformations (`normalizeWord`, `strToLower`, word splitting), not over
  which characters they affect, and their proofs never unfold the tables;
  concrete witnesses only evaluate them on ASCII inputs, where the model
  and the source agree.
-/

/-- A byte, as stored in compressed payloads and serialized indexes. -/
abbrev Byte := Fin 256

/-- Strict lexicographic comparison of char lists. Models Rust's `String`
ordering (byte-lexicographic on UTF-8, which coincides with codepoint-wise
lexicographic order because UTF-8 is order-preserving). -/
def lexLt : List Char → List Char → Bool
  | [], [] => false
  | [], _ :: _ => true
  | _ :: _, [] => false
  | a :: as, b :: bs => if a = b then lexLt as bs else decide (a < b)

/-- Strict string comparison used for FST key ordering and key sorting. -/
def strLt (s t : String) : Bool := lexLt s.data t.data

/-- Non-strict string comparison (total, models `s <= t` on Rust strings). -/
def strLe (s t : String) : Bool := !(strLt t s)

/-- Byte-level prefix test on char lists (models `fst::automaton::Str::starts_with`:
a UTF-8 byte prefix of a valid UTF-8 string is exactly a codepoint prefix). -/
def isPrefixB : List Char → List Char → Bool
  | [], _ => true
  | _ :: _, [] => false
  | a :: as, b :: bs => a = b && isPrefixB as bs

/-- Levenshtein distance with explicit fuel so that the recursion is
structural (and hence kernel-evaluable). With `fuel ≥ |xs| + |ys| + 1` the
fuel never runs out, since every recursive call shrinks `|xs| + |ys|`. -/
def editDistFuel : Nat → List Char → List Char → Nat
  | 0, xs, ys => xs.length + ys.length
  | _ + 1, [], ys => ys.length
  | _ + 1, x :: xs, [] => (x :: xs).length
  | fuel + 1, x :: xs, y :: ys =>
    if x = y then editDistFuel fuel xs ys
    else 1 + min (editDistFuel fuel xs ys)
      (min (editDistFuel fuel (x :: xs) ys) (editDistFuel fuel xs (y :: ys)))

/-- Levenshtein edit distance between two char lists. -/
def editDist (xs ys : List Char) : Nat := editDistFuel (xs.length + ys.length + 1) xs ys

/-- Match of the `fst::automaton::Levenshtein` automaton built with maximum
edit distance 1 (`src/core/src/lib.rs:274`). -/
def levMatch (w k : String) : Bool := editDist w.data k.data ≤ 1

/-- ASCII model of Rust's Unicode `char::is_alphanumeric` (see the module
conventions: no universally quantified theorem depends on this table). -/
def charIsAlnum (c : Char) : Bool :=
  decide ((48 ≤ c.toNat ∧ c.toNat ≤ 57) ∨ (65 ≤ c.toNat ∧ c.toNat ≤ 90) ∨
    (97 ≤ c.toNat ∧ c.toNat ≤ 122))

/-- ASCII model of Rust's Unicode `char::to_lowercase` (single-character;
see the module conventions: no universally quantified theorem depends on
this table). -/
def charToLower (c : Char) : Char :=
  if 65 ≤ c.toNat ∧ c.toNat ≤ 90 then Char.ofNat (c.toNat + 32) else c

/-- Lower-casing of a string, character by character (models `str::to_lowercase`). -/
def strToLower (s : String) : String := ⟨s.data.map charToLower⟩

/-- Strip leading and trailing runs of non-alphanumeric characters: models
`str::trim_matches(|c: char| !c.is_alphanumeric())`. -/
def trimNonAlnum (s : String) : String :=
  ⟨((s.data.dropWhile fun c => !charIsAlnum c).reverse.dropWhile fun c => !charIsAlnum c).reverse⟩

/-- Keyword/query-token normalization from the source
(`src/core/src/lib.rs:147-149` and `260-263`): trim non-alphanumeric edges,
then lower-case. -/
def normalizeWord (w : String) : String := strToLower (trimNonAlnum w)

/-- Splitting into maximal whitespace-free words, models Rust's
`str::split_whitespace` (no empty items). `acc` holds the current word,
reversed. -/
def splitWSAux : List Char → List Char → List (List Char)
  | [], [] => []
  | [], acc => [acc.reverse]
  | c :: rest, acc =>
    if c.isWhitespace then
      match acc with
      | [] => splitWSAux rest []
      | _ :: _ => acc.reverse :: splitWSAux rest []
    else splitWSAux rest (c :: acc)

/-- The whitespace-separated words of a string. -/
def splitWhitespaceM (s : String) : List String := (splitWSAux s.data []).map fun l => ⟨l⟩

/-- Stable insertion of `x` into a list sorted by `le`: `x` is placed before
the first element `y` with `le x y`, hence before any element comparing
equal to it that came later in the original list. -/
def insertLe (le : α → α → Bool) (x : α) : List α → List α
  | [] => [x]
  | y :: ys => if le x y then x :: y :: ys else y :: insertLe le x ys

/-- Stable sort by a total comparator. Models Rust's stable `Vec::sort_by`
(and `sort_by_key`, `sort`): a stable sort's output is uniquely determined
by the comparator and the input order, so insertion sort is an exact model. -/
def stableSortBy (le : α → α → Bool) : List α → List α
  | [] => []
  | x :: xs => insertLe le x (stableSortBy le xs)

/-- Saturating `u8` addition lifted to `Nat` (models `u8::saturating_add`). -/
def satAdd (a b : Nat) : Nat := min 255 (a + b)

/-- Truncating, saturating cast from a non-NaN `f64` (modelled as `ℚ`) to
`u8`, as performed by Rust's `as u8` on `f64`: NaN-free values are rounded
toward zero and clamped to `[0, 255]`. -/
def ratToU8 (q : ℚ) : Nat := if q < 0 then 0 else min 255 q.floor.toNat

/-- UTF-8 encoding of one scalar value. The `% 256` wrappers are no-ops for
valid scalar values; they only make the byte bounds evident. -/
def utf8EncodeCharM (c : Char) : List Byte :=
  let n := c.toNat
  if n < 128 then [⟨n % 256, Nat.mod_lt _ (by omega)⟩]
  else if n < 2048 then
    [⟨(192 + n / 64) % 256, Nat.mod_lt _ (by omega)⟩,
     ⟨(128 + n % 64) % 256, Nat.mod_lt _ (by omega)⟩]
  else if n < 65536 then
    [⟨(224 + n / 4096) % 256, Nat.mod_lt _ (by omega)⟩,
     ⟨(128 + n / 64 % 64) % 256, Nat.mod_lt _ (by omega)⟩,
     ⟨(128 + n % 64) % 256, Nat.mod_lt _ (by omega)⟩]
  else
    [⟨(240 + n / 262144) % 256, Nat.mod_lt _ (by omega)⟩,
     ⟨(128 + n / 4096 % 64) % 256, Nat.mod_lt _ (by omega)⟩,
     ⟨(128 + n / 64 % 64) % 256, Nat.mod_lt _ (by omega)⟩,
     ⟨(128 + n % 64) % 256, Nat.mod_lt _ (by omega)⟩]

/-- The UTF-8 bytes of a string (models Rust's `str::as_bytes`). Where the
source stores or returns a `String`, the model works with its UTF-8 bytes;
this is faithful because UTF-8 encoding is injective and the source's
`String::from_utf8` is its left inverse. -/
def strBytes (s : String) : List Byte := s.data.flatMap utf8EncodeCharM

/-- The byte length of a string (models Rust's `str::len`). -/
def byteLen (s : String) : Nat := (strBytes s).length

/-- An FSST symbol: 8 raw bytes, as stored in `dict_syms: Vec<[u8; 8]>`
(`src/core/src/lib.rs:10`). -/
structure Sym8 where
  b0 : Byte
  b1 : Byte
  b2 : Byte
  b3 : Byte
  b4 : Byte
  b5 : Byte
  b6 : Byte
  b7 : Byte
deriving DecidableEq

/-- The 8 bytes of a symbol as a list. -/
def Sym8.bytes (s : Sym8) : List Byte := [s.b0, s.b1, s.b2, s.b3, s.b4, s.b5, s.b6, s.b7]

/-- The effective symbol table: symbol `i` is the first `dict_lens[i]` bytes
of `dict_syms[i]` (models `fsst::Decompressor::new(&syms, &lens)`). -/
def symbolTable (syms : List Sym8) (lens : List Byte) : List (List Byte) :=
  (syms.zip lens).map fun p => p.1.bytes.take p.2.val

/-- Model of the external `fsst` crate's decompressor: code byte 255 escapes
a literal byte, any other code is replaced by the corresponding symbol-table
entry. -/
def fsstDecompress (table : List (List Byte)) : List Byte → List Byte
  | [] => []
  | c :: rest =>
    if c.val = 255 then
      match rest with
      | [] => []
      | b :: rest2 => b :: fsstDecompress table rest2
    else table.getD c.val [] ++ fsstDecompress table rest

/-- Model of a trained `fsst::Compressor` (an external black box): its
symbol table together with the compression function. Its contract, assumed
where needed, is that decompressing with the published table undoes
`compress` on the training corpus. -/
structure Compressor where
  dict_syms : List Sym8
  dict_lens : List Byte
  compress : List Byte → List Byte

/-- A trivially correct compressor (every byte escaped), used for concrete
evaluations. -/
def escapeCompressor : Compressor where
  dict_syms := []
  dict_lens := []
  compress := fun s => s.flatMap fun b => [⟨255, by omega⟩, b]

/-- `FsstStrVec` (`src/core/src/lib.rs:8-15`): an FSST-compressed string
column with random access. Strings are represented by their UTF-8 bytes. -/
structure FsstStrVec where
  dict_syms : List Sym8
  dict_lens : List Byte
  offsets : List Nat
  data : List Byte
deriving DecidableEq

/-- `FsstStrVec::from_strings` (`src/core/src/lib.rs:20-50`): compress each
string independently, pushing `data.len() as u32` as its offset (the
source's wrapping cast, modelled by `% 2^32`) before appending its codes.
The training step is abstracted into the `Compressor` parameter. -/
def FsstStrVec.from_strings (comp : Compressor) (strings : List (List Byte)) : FsstStrVec :=
  let built := strings.foldl (fun (acc : List Nat × List Byte) s =>
    (acc.1 ++ [acc.2.length % 4294967296], acc.2 ++ comp.compress s)) ([], [])
  { dict_syms := comp.dict_syms
    dict_lens := comp.dict_lens
    offsets := built.1
    data := built.2 }

/-- `FsstStrVec::len` (`src/core/src/lib.rs:53-55`). -/
def FsstStrVec.len (v : FsstStrVec) : Nat := v.offsets.length

/-- `FsstStrVec::get` (`src/core/src/lib.rs:58-81`): bounds-check, slice
`data[offsets[i] .. end]` where `end` is the next offset (or `data.len()`
for the last item), decompress with the stored dictionary. The source's
final `String::from_utf8` is the inverse of the UTF-8 encoding and is left
implicit: the model returns the decoded bytes. -/
def FsstStrVec.get (v : FsstStrVec) (i : Nat) : Option (List Byte) :=
  if v.len ≤ i then none
  else
    some (fsstDecompress (symbolTable v.dict_syms v.dict_lens)
      ((v.data.drop (v.offsets.getD i 0)).take
        ((if i + 1 < v.len then v.offsets.getD (i + 1) 0 else v.data.length) -
          v.offsets.getD i 0)))

/-- `Document` (`src/core/src/lib.rs:86-92`). -/
structure Document where
  title : String
  category : String
  href : String
  body : String
  keywords : Option (List String)

/-- The flattened column input: the quadruple `[title, category, href, body]`
per document, in input order (`src/core/src/lib.rs:136-139`), as UTF-8 bytes. -/
def docStrings (documents : List Document) : List (List Byte) :=
  documents.flatMap fun d => [strBytes d.title, strBytes d.category, strBytes d.href, strBytes d.body]

/-- Explicit-keyword pass of `build_index` (`src/core/src/lib.rs:145-156`):
normalize each metadata keyword; emit score 100 if non-empty, not a stop
word, and unseen. `seen` models the `keyword_set` hash set (membership
only). -/
def addExplicit (sw : List String) : List String → List (String × ℚ) → List String →
    List (String × ℚ) × List String
  | seen, acc, [] => (acc, seen)
  | seen, acc, k :: rest =>
    let keyword := normalizeWord k
    if keyword ≠ "" ∧ keyword ∉ sw ∧ keyword ∉ seen then
      addExplicit sw (seen ++ [keyword]) (acc ++ [(keyword, 100)]) rest
    else addExplicit sw seen acc rest

/-- First-occurrence deduplication (the canonical iteration order chosen for
the source's hash sets; see the modelling conventions above). -/
def dedupKeep (seen : List String) : List String → List String
  | [] => []
  | x :: xs => if x ∈ seen then dedupKeep seen xs else x :: dedupKeep (seen ++ [x]) xs

/-- Title-keyword candidates (`src/core/src/lib.rs:159-167`): normalized
whitespace-separated title words, filtered non-empty and non-stop-word,
deduplicated. The source collects them into a hash set whose iteration
order is unspecified; the model uses first-occurrence order, which is
observationally immaterial (all title keywords carry the same score and the
final keyword map is canonicalised by sorting). -/
def titleKeywords (sw : List String) (title : String) : List String :=
  dedupKeep [] (((splitWhitespaceM title).map normalizeWord).filter fun w => w ≠ "" && !sw.contains w)

/-- Title pass of `build_index` (`src/core/src/lib.rs:169-174`): emit each
unseen title keyword with score 90. -/
def addTitle : List String → List (String × ℚ) → List String →
    List (String × ℚ) × List String
  | seen, acc, [] => (acc, seen)
  | seen, acc, tk :: rest =>
    if tk ∉ seen then addTitle (seen ++ [tk]) (acc ++ [(tk, 90)]) rest
    else addTitle seen acc rest

/-- RAKE body pass of `build_index` (`src/core/src/lib.rs:176-204`): for
each RAKE phrase in order, lower-case it (note: no edge trimming), skip if
seen (without charging budget), otherwise charge the single- or double-word
budget by the count of ASCII spaces in the original phrase, and stop once
both budgets are exhausted. -/
def addBody : List String → List (String × ℚ) → Nat → Nat → List (String × ℚ) →
    List (String × ℚ)
  | _, acc, _, _, [] => acc
  | seen, acc, single, double, (phrase, score) :: rest =>
    let keyword := strToLower phrase
    if keyword ∈ seen then addBody seen acc single double rest
    else
      let w := phrase.data.count ' '
      if w = 0 ∧ 0 < single then
        if single - 1 = 0 ∧ double = 0 then acc ++ [(keyword, score)]
        else addBody (seen ++ [keyword]) (acc ++ [(keyword, score)]) (single - 1) double rest
      else if w = 1 ∧ 0 < double then
        if single = 0 ∧ double - 1 = 0 then acc ++ [(keyword, score)]
        else addBody (seen ++ [keyword]) (acc ++ [(keyword, score)]) single (double - 1) rest
      else addBody seen acc single double rest

/-- The per-document keyword extraction of `build_index`
(`src/core/src/lib.rs:141-204`): explicit keywords (score 100), then title
words (score 90), then RAKE body phrases (their own scores) under the
budgets `single_word_budget = 5`, `double_word_budget = 3`. `rake` models
the external RAKE extractor applied to the body. -/
def extractKeywords (sw : List String) (rake : String → List (String × ℚ)) (doc : Document) :
    List (String × ℚ) :=
  let explicitDone := addExplicit sw [] [] (doc.keywords.getD [])
  let titleDone := addTitle explicitDone.2 explicitDone.1 (titleKeywords sw doc.title)
  addBody titleDone.2 titleDone.1 5 3 (rake doc.body)

/-- Append `v` to the list stored under `k`, creating the entry if absent:
models `HashMap::entry(k).or_default().push(v)` on
`keywords_to_documents` (`src/core/src/lib.rs:206-211`). The association
list keeps first-insertion key order; the source's hash order is
immaterial because the keys are sorted before use. -/
def kwInsert (m : List (String × List (Nat × ℚ))) (k : String) (v : Nat × ℚ) :
    List (String × List (Nat × ℚ)) :=
  match m with
  | [] => [(k, [v])]
  | (k', vs) :: rest => if k' = k then (k', vs ++ [v]) :: rest else (k', vs) :: kwInsert rest k v

/-- The keyword → list of `(document position, score)` map accumulated over
all documents in input order (`src/core/src/lib.rs:134-212`). Document
references are represented by input positions. -/
def buildKwMap (sw : List String) (rake : String → List (String × ℚ))
    (documents : List Document) : List (String × List (Nat × ℚ)) :=
  documents.enum.foldl
    (fun m p => (extractKeywords sw rake p.2).foldl (fun m kv => kwInsert m kv.1 (p.1, kv.2)) m) []

/-- Insert-or-replace for `doc_index_map: HashMap<&str, usize>`
(`src/core/src/lib.rs:135`): a later document with the same `href`
overwrites the entry. -/
def hrefInsert (m : List (String × Nat)) (k : String) (v : Nat) : List (String × Nat) :=
  match m with
  | [] => [(k, v)]
  | (k', v') :: rest => if k' = k then (k', v) :: rest else (k', v') :: hrefInsert rest k v

/-- The `href → doc_index` map of `build_index`. -/
def buildHrefMap (documents : List Document) : List (String × Nat) :=
  documents.enum.foldl (fun m p => hrefInsert m p.2.href p.1) []

/-- The `href` of the document at input position `p` (total, with a default
for out-of-range positions that never arise). -/
def hrefAt (documents : List Document) (p : Nat) : String :=
  ((documents.get? p).map Document.href).getD ""

/-- `doc_index_map[doc.href.as_str()]` (`src/core/src/lib.rs:229`): the map
always contains every document's href, so the default is never used. -/
def lookupHref (m : List (String × Nat)) (h : String) : Nat := (List.lookup h m).getD 0

/-- The posting list materialised for one keyword
(`src/core/src/lib.rs:224-232`): take its `(document, f64 score)` list,
stable-sort descending by score (`partial_cmp` — total on the non-NaN
scores modelled by `ℚ`), then map each document to its `doc_index` via the
href map and truncate the score with the `as u8` cast. -/
def postingOf (kwMap : List (String × List (Nat × ℚ))) (hrefMap : List (String × Nat))
    (documents : List Document) (k : String) : List (Nat × Nat) :=
  let docScores := ((List.lookup k kwMap).getD [])
  let sorted := stableSortBy (fun a b => decide (b.2 ≤ a.2)) docScores
  sorted.map fun e => (lookupHref hrefMap (hrefAt documents e.1), ratToU8 e.2)

/-- Model of `fst::MapBuilder` insertion (`src/core/src/lib.rs:221-222`):
keys must be inserted in strictly increasing byte order, otherwise `insert`
returns an out-of-order error which `?` propagates. The builder state is
the list of pairs inserted so far. -/
def buildFstAux (last : Option String) (acc : List (String × Nat)) (i : Nat) :
    List String → Except String (List (String × Nat))
  | [] => .ok acc
  | k :: rest =>
    match last with
    | none => buildFstAux (some k) (acc ++ [(k, i)]) (i + 1) rest
    | some k' =>
      if strLt k' k then buildFstAux (some k) (acc ++ [(k, i)]) (i + 1) rest
      else .error "out of order"

/-- The sorted distinct keywords (`src/core/src/lib.rs:218-219`): the map's
keys, sorted with Rust's stable `sort` under byte-lexicographic order. -/
def sortedKeywords (kwMap : List (String × List (Nat × ℚ))) : List String :=
  stableSortBy strLe (kwMap.map fun e => e.1)

/-- The index as built and searched, with the FST represented by its logical
content: the lexicographically sorted `keyword → posting index` association
list that `fst_builder` serialises and `fst::Map::new` reparses
(`src/core/src/lib.rs:95-104`). `keyword_to_documents` entries are
`(doc_index, u8 score)`. -/
structure IndexModel where
  fstMap : List (String × Nat)
  keyword_to_documents : List (List (Nat × Nat))
  document_strings : FsstStrVec
deriving DecidableEq

/-- `build_index` (`src/core/src/lib.rs:118-243`), parametrised by the
external black boxes: the trained FSST compressor, the stop-word list
(the `english.stop` asset) and the RAKE extractor. Sorting the map keys
and walking them in order, it inserts each keyword into the FST builder
(whose only failure mode, out-of-order keys, is propagated by `?`) and
materialises its posting list; finally the flattened document strings are
compressed into the column. -/
def build_index (comp : Compressor) (sw : List String) (rake : String → List (String × ℚ))
    (documents : List Document) : Except String IndexModel := do
  let kwMap := buildKwMap sw rake documents
  let hrefMap := buildHrefMap documents
  let keywords := sortedKeywords kwMap
  let fstMap ← buildFstAux none [] 0 keywords
  let keyword_to_documents := keywords.map (postingOf kwMap hrefMap documents)
  .ok { fstMap := fstMap
        keyword_to_documents := keyword_to_documents
        document_strings := FsstStrVec.from_strings comp (docStrings documents) }

/-- The hits one query word produces against the FST
(`src/core/src/lib.rs:271-287`): the union stream of the Levenshtein
(distance ≤ 1) automaton and the byte-prefix automaton. The `fst` crate's
union merges streams by key, yielding each matching key exactly once
together with the indexed values of every stream containing it; the source
takes `indexed_value.to_vec().get(0).unwrap().value`, which is the map's
value for the key since both streams search the same map. Hence: one
`(keyword, value)` hit per matching key, in the FST's sorted key order. -/
def hitsForWord (m : List (String × Nat)) (w : String) : List (String × Nat) :=
  m.filter fun p => levMatch w p.1 || isPrefixB w.data p.1.data

/-- All hits across the query words, in word order (`src/core/src/lib.rs:269-287`). -/
def collectHits (m : List (String × Nat)) (ws : List String) : List (String × Nat) :=
  ws.flatMap (hitsForWord m)

/-- The query-word set of `search` (`src/core/src/lib.rs:258-267`): split on
whitespace, normalize, drop empties, collect as a set, and additionally
insert the lower-cased full query. The hash set's iteration order is
unspecified in the source; this canonical order is proven immaterial
(`searchWithWords` is invariant under permutation of the word list). -/
def queryWords (query : String) : List String :=
  let ws := dedupKeep [] (((splitWhitespaceM query).map normalizeWord).filter fun w => w ≠ "")
  let full := strToLower query
  if full ∈ ws then ws else ws ++ [full]

/-- Per-document score accumulation step (`src/core/src/lib.rs:297-300`):
`*documents.entry(d).or_insert(0) = entry.saturating_add(s)`, on an
association list in first-insertion order. -/
def upsertSat (m : List (Nat × Nat)) (d s : Nat) : List (Nat × Nat) :=
  match m with
  | [] => [(d, satAdd 0 s)]
  | (d', c) :: rest => if d' = d then (d', satAdd c s) :: rest else (d', c) :: upsertSat rest d s

/-- The accumulated `doc_index → saturated score` map
(`src/core/src/lib.rs:292-301`): walk the hits in order, and for each hit
walk its posting list, saturating-adding every posting score into the map.
(The source indexes `keyword_to_documents[keyword_index]`, which panics on
an out-of-range value; `getD` with an empty default only widens the model's
domain and is never exercised by indexes satisfying the FST invariant.) -/
def accumulate (postings : List (List (Nat × Nat))) (hits : List (String × Nat)) :
    List (Nat × Nat) :=
  (hits.flatMap fun h => postings.getD h.2 []).foldl (fun m e => upsertSat m e.1 e.2) []

/-- Hit comparator of `keywords.sort_by_key(|(kw, _)| kw.len())`
(`src/core/src/lib.rs:290`): ascending byte length. -/
def lenLe (a b : String × Nat) : Bool := decide (byteLen a.1 ≤ byteLen b.1)

/-- Ranking comparator of `src/core/src/lib.rs:305`:
`b.1.cmp(&a.1).then_with(|| a.0.cmp(&b.0))`, i.e. score descending, then
`doc_index` ascending. -/
def rankLe (a b : Nat × Nat) : Bool := decide (b.2 < a.2 ∨ (a.2 = b.2 ∧ a.1 ≤ b.1))

/-- The ranked, truncated `(doc_index, score)` list of `search`
(`src/core/src/lib.rs:269-306`), for an explicitly given query-word order. -/
def rankedDocuments (I : IndexModel) (ws : List String) (max_results : Nat) :
    List (Nat × Nat) :=
  let keywords := stableSortBy lenLe (collectHits I.fstMap ws)
  let documents := accumulate I.keyword_to_documents keywords
  (stableSortBy rankLe documents).take max_results

/-- A search result document (`src/core/src/lib.rs:328-334`): the four
column slots of the document; the source sets `keywords: None` always.
Fields hold the decoded UTF-8 bytes. -/
structure ResultDoc where
  title : List Byte
  category : List Byte
  href : List Byte
  body : List Byte
deriving DecidableEq

/-- Result reconstruction (`src/core/src/lib.rs:310-334`): read the four
column slots `4d .. 4d+3`; any absent slot is a fatal error (`ok_or_else`),
modelled by `Option`. -/
def reconstruct (I : IndexModel) (d : Nat) : Option ResultDoc := do
  let title ← I.document_strings.get (d * 4)
  let category ← I.document_strings.get (d * 4 + 1)
  let href ← I.document_strings.get (d * 4 + 2)
  let body ← I.document_strings.get (d * 4 + 3)
  some { title := title, category := category, href := href, body := body }

/-- `search` with the query-word iteration order made explicit. -/
def searchWithWords (I : IndexModel) (ws : List String) (max_results : Nat) :
    Option (List ResultDoc) :=
  (rankedDocuments I ws max_results).mapM fun e => reconstruct I e.1

/-- `search` (`src/core/src/lib.rs:246-340`). -/
def search (I : IndexModel) (query : String) (max_results : Nat) : Option (List ResultDoc) :=
  searchWithWords I (queryWords query) max_results

/-- The serialized `Index` (`src/core/src/lib.rs:94-104`) exactly as
Postcard sees it: `fst` is the raw FST byte vector, scores are `u8`. -/
structure Index where
  fst : List Byte
  document_strings : FsstStrVec
  keyword_to_documents : List (List (Nat × Byte))
deriving DecidableEq

/-- `search` on a serialized `Index`: `fst::Map::new(&index.fst)?` reparses
the FST bytes (the external parse is the parameter `fstNew`), then the
search pipeline runs on the parsed map (`src/core/src/lib.rs:256`). -/
def Index.search (fstNew : List Byte → Option (List (String × Nat))) (I : Index)
    (query : String) (max_results : Nat) : Option (List ResultDoc) :=
  match fstNew I.fst with
  | none => none
  | some m =>
    searchWithWords
      { fstMap := m
        keyword_to_documents := I.keyword_to_documents.map fun pl => pl.map fun e => (e.1, e.2.val)
        document_strings := I.document_strings }
      (queryWords query) max_results

/-- Postcard's LEB128 unsigned varint encoding, as used for `usize`, `u32`
and `u64` fields and all `Vec` length prefixes. (Postcard caps varints at
the integer's width; encoding is identical for in-range values, and the
source only ever decodes bytes it produced.) -/
def encodeVarint (n : Nat) : List Byte :=
  if h : n < 128 then [⟨n, by omega⟩]
  else ⟨128 + n % 128, by omega⟩ :: encodeVarint (n / 128)
decreasing_by exact Nat.div_lt_self (by omega) (by omega)

/-- Varint decoding; returns the value and the remaining bytes. -/
def decodeVarint : List Byte → Option (Nat × List Byte)
  | [] => none
  | b :: rest =>
    if b.val < 128 then some (b.val, rest)
    else
      match decodeVarint rest with
      | some (m, rest2) => some ((b.val - 128) + 128 * m, rest2)
      | none => none

/-- Postcard encoding of a `Vec<T>`: varint length prefix, then elements. -/
def encodeVec (enc : α → List Byte) (l : List α) : List Byte :=
  encodeVarint l.length ++ l.flatMap enc

/-- Decode a fixed number of elements. -/
def decodeListN (dec : List Byte → Option (α × List Byte)) :
    Nat → List Byte → Option (List α × List Byte)
  | 0, bs => some ([], bs)
  | n + 1, bs =>
    match dec bs with
    | none => none
    | some (a, bs2) =>
      match decodeListN dec n bs2 with
      | none => none
      | some (as, bs3) => some (a :: as, bs3)

/-- Decode a `Vec<T>`. -/
def decodeVec (dec : List Byte → Option (α × List Byte)) (bs : List Byte) :
    Option (List α × List Byte) :=
  match decodeVarint bs with
  | none => none
  | some (n, bs2) => decodeListN dec n bs2

/-- Postcard encoding of a `u8`. -/
def encodeByte (b : Byte) : List Byte := [b]

/-- Decode a `u8`. -/
def decodeByte : List Byte → Option (Byte × List Byte)
  | [] => none
  | b :: rest => some (b, rest)

/-- Postcard encoding of `[u8; 8]`: the 8 bytes raw (serde arrays carry no
length prefix). -/
def encodeSym8 (s : Sym8) : List Byte := s.bytes

/-- Decode `[u8; 8]`. -/
def decodeSym8 : List Byte → Option (Sym8 × List Byte)
  | b0 :: b1 :: b2 :: b3 :: b4 :: b5 :: b6 :: b7 :: rest =>
    some (⟨b0, b1, b2, b3, b4, b5, b6, b7⟩, rest)
  | _ => none

/-- Postcard encoding of a `(usize, u8)` posting entry: fields in order. -/
def encodeEntry (e : Nat × Byte) : List Byte := encodeVarint e.1 ++ [e.2]

/-- Decode a `(usize, u8)` posting entry. -/
def decodeEntry (bs : List Byte) : Option ((Nat × Byte) × List Byte) :=
  match decodeVarint bs with
  | none => none
  | some (n, bs2) =>
    match decodeByte bs2 with
    | none => none
    | some (b, bs3) => some ((n, b), bs3)

/-- Postcard encoding of `FsstStrVec`: its four fields in declaration order
(`dict_syms`, `dict_lens`, `offsets`, `data`). -/
def encodeFsst (v : FsstStrVec) : List Byte :=
  encodeVec encodeSym8 v.dict_syms ++ encodeVec encodeByte v.dict_lens ++
    encodeVec encodeVarint v.offsets ++ encodeVec encodeByte v.data

/-- Decode an `FsstStrVec`. -/
def decodeFsst (bs : List Byte) : Option (FsstStrVec × List Byte) :=
  match decodeVec decodeSym8 bs with
  | none => none
  | some (syms, bs1) =>
    match decodeVec decodeByte bs1 with
    | none => none
    | some (lens, bs2) =>
      match decodeVec decodeVarint bs2 with
      | none => none
      | some (offs, bs3) =>
        match decodeVec decodeByte bs3 with
        | none => none
        | some (dat, bs4) => some (⟨syms, lens, offs, dat⟩, bs4)

/-- `Index::to_bytes` (`src/core/src/lib.rs:112-114`), i.e.
`postcard::to_allocvec`: the three struct fields encoded in declaration
order with no framing. -/
def Index.to_bytes (I : Index) : List Byte :=
  encodeVec encodeByte I.fst ++ encodeFsst I.document_strings ++
    encodeVec (encodeVec encodeEntry) I.keyword_to_documents

/-- `Index::from_bytes` (`src/core/src/lib.rs:107-110`), i.e.
`postcard::from_bytes`: decode the three fields in order. -/
def Index.from_bytes (bs : List Byte) : Option Index :=
  match decodeVec decodeByte bs with
  | none => none
  | some (fstBytes, bs1) =>
    match decodeFsst bs1 with
    | none => none
    | some (ds, bs2) =>
      match decodeVec (decodeVec decodeEntry) bs2 with
      | none => none
      | some (kd, _) => some ⟨fstBytes, ds, kd⟩

/-- Rust's `u64 as i32` cast (`src/cli/src/main.rs:285,303`): truncate to 32
bits and reinterpret as two's-complement signed. -/
def toI32 (n : Nat) : Int :=
  let m := n % 4294967296
  if m < 2147483648 then (m : Int) else (m : Int) - 4294967296

/-- `i32::to_le_bytes` (`src/cli/src/main.rs:285,289`): the little-endian
bytes of the 32-bit two's-complement pattern. -/
def le4 (v : Int) : List Byte :=
  let m := (v % 4294967296).toNat
  [⟨m % 256, Nat.mod_lt _ (by omega)⟩,
   ⟨m / 256 % 256, Nat.mod_lt _ (by omega)⟩,
   ⟨m / 65536 % 256, Nat.mod_lt _ (by omega)⟩,
   ⟨m / 16777216 % 256, Nat.mod_lt _ (by omega)⟩]

/-- Overwrite 4 bytes of `d` at `pos` (models
`data[pos..pos+4].copy_from_slice(&v.to_le_bytes())`; in every reachable
call the 4-byte window is in bounds). -/
def writeLE4At (d : List Byte) (pos : Nat) (v : Int) : List Byte :=
  d.take pos ++ le4 v ++ d.drop (pos + 4)

/-- A parsed WebAssembly data segment as the assembler represents it
(`src/cli/src/main.rs:9-17`): passive, or active with its memory index,
the `i32.const` offset when the offset expression has that shape (`none`
models any other offset expression, whose segment passes through
unpatched), and the payload. -/
inductive WasmDataSegment where
  | passive (data : List Byte)
  | active (memory_index : Nat) (offsetI32 : Option Int) (data : List Byte)
deriving DecidableEq

/-- The data-segment rewrite of `src/cli/src/main.rs:259-298`: an active
segment with an `i32.const` offset containing the `INDEX_BASE` sentinel
address gets the two 4-byte words at the sentinel addresses overwritten
with `index_base` and `raw_index.len()` (little-endian `i32`); the source
asserts that `INDEX_LEN`'s address lies in the same segment and panics
otherwise (modelled by `none`). All other segments pass through. -/
def patchSegment (baseAddr lenAddr : Int) (indexBase rawLen : Nat) :
    WasmDataSegment → Option WasmDataSegment
  | .passive d => some (.passive d)
  | .active mi none d => some (.active mi none d)
  | .active mi (some start) d =>
    if baseAddr ≥ start ∧ baseAddr < start + d.length then
      if lenAddr ≥ start ∧ lenAddr < start + d.length then
        some (.active mi (some start)
          (writeLE4At (writeLE4At d (baseAddr - start).toNat (toI32 indexBase))
            (lenAddr - start).toNat (toI32 rawLen)))
      else none
    else some (.active mi (some start) d)

/-- The assembler's output, restricted to the sections it rewrites: the new
memory page count, the rewritten data section, and the incremented data
count (all other sections are re-emitted verbatim,
`src/cli/src/main.rs:320-322`). -/
structure AssembleOutput where
  newPages : Nat
  dataSegments : List WasmDataSegment
  dataCount : Option Nat
deriving DecidableEq

/-- The module rewrite of `src/cli/src/main.rs:241-318`: compute
`new_memory_page_count = old + len/65536 + 1` and
`index_base = old * 65536`, patch the sentinel-bearing segment, append one
active segment `(memory 0, i32.const index_base, raw_index)` after all
existing segments, and bump the data count. -/
def assemble (oldPages : Nat) (segments : List WasmDataSegment) (dataCount : Option Nat)
    (baseAddr lenAddr : Int) (rawIndex : List Byte) : Option AssembleOutput := do
  let newPages := oldPages + rawIndex.length / 65536 + 1
  let indexBase := oldPages * 65536
  let patched ← segments.mapM (patchSegment baseAddr lenAddr indexBase rawIndex.length)
  some { newPages := newPages
         dataSegments := patched ++ [.active 0 (some (toI32 indexBase)) rawIndex]
         dataCount := dataCount.map (· + 1) }

/-- The rational 13/4 = 3.25 (exactly representable in `f64`). -/
def qA : ℚ := ⟨13, 4, by norm_num, by norm_num⟩

/-- The rational 7/2 = 3.5 (exactly representable in `f64`). -/
def qB : ℚ := ⟨7, 2, by norm_num, by norm_num⟩

/-- A RAKE extractor returning no phrases, for concrete evaluations. -/
def rakeNone : String → List (String × ℚ) := fun _ => []

/-- The built index, or a default on the (unreachable) error path; used to
name concrete build outputs. -/
def builtOrDefault (e : Except String IndexModel) : IndexModel :=
  match e with
  | .ok I => I
  | .error _ => { fstMap := [], keyword_to_documents := [], document_strings := ⟨[], [], [], []⟩ }

/-- A one-document corpus with one explicit keyword. -/
def docsW : List Document :=
  [{ title := "T", category := "c", href := "/h", body := "b", keywords := some ["kw"] }]

/-- The index built from `docsW`. -/
def builtW : IndexModel := builtOrDefault (build_index escapeCompressor [] rakeNone docsW)

/-- A two-document corpus whose bodies `ba` and `bb` drive `rakeC4`. -/
def docsC4 : List Document :=
  [{ title := "Ta", category := "ca", href := "/a", body := "ba", keywords := none },
   { title := "Tb", category := "cb", href := "/b", body := "bb", keywords := none }]

/-- A RAKE extractor giving the shared phrase `zz` score 3.25 on the first
body and 3.5 on the second: two distinct non-NaN scores that truncate to
the same `u8` value 3. -/
def rakeC4 : String → List (String × ℚ) := fun b =>
  if b = "ba" then [("zz", qA)] else if b = "bb" then [("zz", qB)] else []

/-- The index built from `docsC4` under `rakeC4`. -/
def builtC4 : IndexModel := builtOrDefault (build_index escapeCompressor [] rakeC4 docsC4)

/-- A one-document corpus whose body drives `rakeC9`. -/
def docsC9 : List Document :=
  [{ title := "T", category := "c", href := "/h", body := "b", keywords := none }]

/-- A RAKE extractor returning the phrase `-x`, whose leading hyphen
survives the body-keyword pass (which only lower-cases). -/
def rakeC9 : String → List (String × ℚ) := fun b => if b = "b" then [("-x", qA)] else []

/-- The index built from `docsC9` under `rakeC9`. -/
def builtC9 : IndexModel := builtOrDefault (build_index escapeCompressor [] rakeC9 docsC9)

/-- A handcrafted two-keyword index (in the style of the source's
`test_search_with_typo` fixture). -/
def idxC7 : IndexModel :=
  { fstMap := [("aa", 0), ("bb", 1)]
    keyword_to_documents := [[(0, 5)], [(1, 4)]]
    document_strings := FsstStrVec.from_strings escapeCompressor (docStrings docsC4) }

/-- A handcrafted one-keyword index whose single key `ab` is matched by both
the Levenshtein and the prefix automaton of the query word `ab`. -/
def idxC8 : IndexModel :=
  { fstMap := [("ab", 0)]
    keyword_to_documents := [[(0, 5)]]
    document_strings := FsstStrVec.from_strings escapeCompressor (docStrings docsW) }

/-- The concrete result list of `search idxC8 "ab" 2`. -/
def resW : List ResultDoc := (search idxC8 "ab" 2).getD []

/-- The fold underlying `accumulate`, with an explicit starting map. -/
def scoreFold (m : List (Nat × Nat)) (es : List (Nat × Nat)) : List (Nat × Nat) :=
  es.foldl (fun m e => upsertSat m e.1 e.2) m

/-- The total score contributed to document `d` by an entry list. -/
def sumFor (es : List (Nat × Nat)) (d : Nat) : Nat :=
  ((es.filter fun e => e.1 = d).map fun e => e.2).sum

/-- Association-list lookup on the accumulated score map. -/
def lookupD (d : Nat) : List (Nat × Nat) → Option Nat
  | [] => none
  | (k, v) :: rest => if k = d then some v else lookupD d rest

/-- The offsets that `from_strings` records for `ss` when `data` already
holds `base` bytes: each string starts where the previous one ended, and
the recorded value carries the source's `as u32` wrap. -/
def offsetsFrom (comp : Compressor) (base : Nat) : List (List Byte) → List Nat
  | [] => []
  | s :: ss => base % 4294967296 :: offsetsFrom comp (base + (comp.compress s).length) ss

/-- Total compressed length of a string list. -/
def compLen (comp : Compressor) (ss : List (List Byte)) : Nat :=
  (ss.map fun s => (comp.compress s).length).sum

theorem insertLe_perm (le : α → α → Bool) (x : α) :
    ∀ l : List α, (insertLe le x l).Perm (x :: l)
  | [] => List.Perm.refl _
  | y :: ys => by
    rw [insertLe]
    by_cases h : le x y = true
    · simp [h]
    · simp only [h, if_false]
      exact ((insertLe_perm le x ys).cons y).trans (List.Perm.swap x y ys)

theorem stableSortBy_perm (le : α → α → Bool) : ∀ l : List α, (stableSortBy le l).Perm l
  | [] => List.Perm.refl _
  | x :: xs => (insertLe_perm le x _).trans ((stableSortBy_perm le xs).cons x)

theorem mem_insertLe {le : α → α → Bool} {x a : α} {l : List α} :
    a ∈ insertLe le x l ↔ a = x ∨ a ∈ l := by
  rw [(insertLe_perm le x l).mem_iff, List.mem_cons]

/-- Stability-aware sortedness: inserting an element that the auxiliary
relation `Q` places before everything already in the list preserves the
combined invariant "sorted by `le`, with `le`-ties ordered by `Q`". -/
theorem pairwise_insertLe {le : α → α → Bool} {Q : α → α → Prop}
    (htot : ∀ a b, le a b = true ∨ le b a = true)
    (htrans : ∀ a b c, le a b = true → le b c = true → le a c = true)
    {x : α} {l : List α}
    (hl : l.Pairwise fun a b => le a b = true ∧ (le b a = true → Q a b))
    (hx : ∀ y ∈ l, Q x y) :
    (insertLe le x l).Pairwise fun a b => le a b = true ∧ (le b a = true → Q a b) := by
  induction l with
  | nil => simp [insertLe]
  | cons y ys ih =>
    rw [List.pairwise_cons] at hl
    obtain ⟨hy, hys⟩ := hl
    rw [insertLe]
    by_cases h : le x y = true
    · rw [if_pos h]
      rw [List.pairwise_cons]
      refine ⟨fun z hz => ?_, List.pairwise_cons.mpr ⟨hy, hys⟩⟩
      rcases List.mem_cons.mp hz with rfl | hz
      · exact ⟨h, fun _ => hx z (List.mem_cons_self _ _)⟩
      · exact ⟨htrans x y z h (hy z hz).1, fun _ => hx z (List.mem_cons_of_mem _ hz)⟩
    · rw [if_neg h]
      rw [List.pairwise_cons]
      refine ⟨fun z hz => ?_, ih hys fun z hz => hx z (List.mem_cons_of_mem _ hz)⟩
      rcases mem_insertLe.mp hz with rfl | hz
      · exact ⟨(htot z y).resolve_left h, fun hc => absurd hc h⟩
      · exact hy z hz

/-- Stable sort of a list whose original order satisfies `Q` pairwise is
sorted by `le` with all `le`-ties still in `Q`-order. -/
theorem pairwise_stableSortBy {le : α → α → Bool} {Q : α → α → Prop}
    (htot : ∀ a b, le a b = true ∨ le b a = true)
    (htrans : ∀ a b c, le a b = true → le b c = true → le a c = true) :
    ∀ {l : List α}, l.Pairwise Q →
      (stableSortBy le l).Pairwise fun a b => le a b = true ∧ (le b a = true → Q a b)
  | [], _ => by simp [stableSortBy]
  | x :: xs, hl => by
    rw [List.pairwise_cons] at hl
    exact pairwise_insertLe htot htrans (pairwise_stableSortBy htot htrans hl.2)
      fun y hy => hl.1 y ((stableSortBy_perm le xs).mem_iff.mp hy)

theorem pairwise_true (l : List α) : l.Pairwise fun _ _ => True := by
  induction l with
  | nil => exact List.Pairwise.nil
  | cons x xs ih => exact List.Pairwise.cons (fun _ _ => trivial) ih

theorem sorted_stableSortBy {le : α → α → Bool}
    (htot : ∀ a b, le a b = true ∨ le b a = true)
    (htrans : ∀ a b c, le a b = true → le b c = true → le a c = true)
    (l : List α) : (stableSortBy le l).Pairwise fun a b => le a b = true :=
  (pairwise_stableSortBy htot htrans (pairwise_true l)).imp fun h => h.1

theorem lexLt_irrefl : ∀ l : List Char, lexLt l l = false
  | [] => rfl
  | c :: cs => by rw [lexLt]; simp [lexLt_irrefl cs]

theorem lexLt_trans : ∀ {a b c : List Char},
    lexLt a b = true → lexLt b c = true → lexLt a c = true
  | [], _ :: _, _ :: _, _, _ => rfl
  | x :: xs, y :: ys, z :: zs, h1, h2 => by
    rw [lexLt] at h1 h2 ⊢
    by_cases hxy : x = y
    · subst hxy
      by_cases hyz : x = z
      · subst hyz
        simp only [if_pos rfl] at h1 h2 ⊢
        exact lexLt_trans h1 h2
      · simp only [if_pos rfl] at h1
        simp only [if_neg hyz] at h2 ⊢
        exact h2
    · by_cases hyz : y = z
      · subst hyz
        simp only [if_neg hxy] at h1 ⊢
        exact h1
      · simp only [if_neg hxy] at h1
        simp only [if_neg hyz] at h2
        have hxz : x < z := lt_trans (of_decide_eq_true h1) (of_decide_eq_true h2)
        have : x ≠ z := ne_of_lt hxz
        simp only [if_neg this]
        exact decide_eq_true hxz

theorem lexLt_trichot : ∀ a b : List Char, lexLt a b = true ∨ a = b ∨ lexLt b a = true
  | [], [] => Or.inr (Or.inl rfl)
  | [], _ :: _ => Or.inl rfl
  | _ :: _, [] => Or.inr (Or.inr rfl)
  | x :: xs, y :: ys => by
    by_cases hxy : x = y
    · subst hxy
      rcases lexLt_trichot xs ys with h | h | h
      · exact Or.inl (by rw [lexLt]; simp [h])
      · exact Or.inr (Or.inl (by rw [h]))
      · exact Or.inr (Or.inr (by rw [lexLt]; simp [h]))
    · rcases lt_trichotomy x y with h | h | h
      · exact Or.inl (by rw [lexLt]; simp [hxy, h])
      · exact absurd h hxy
      · refine Or.inr (Or.inr ?_)
        rw [lexLt]
        have : y ≠ x := fun e => hxy e.symm
        simp [this, h]

theorem strLe_total (s t : String) : strLe s t = true ∨ strLe t s = true := by
  unfold strLe
  by_cases h1 : lexLt t.data s.data = true
  · by_cases h2 : lexLt s.data t.data = true
    · have := lexLt_trans h1 h2
      rw [lexLt_irrefl] at this
      exact absurd this (by simp)
    · right
      unfold strLt
      simp [h2]
  · left
    unfold strLt
    simp [h1]

theorem string_eq_of_data_eq {s t : String} (h : s.data = t.data) : s = t := by
  cases s
  cases t
  simp only at h
  rw [h]

theorem strLe_trans {r s t : String} (h1 : strLe r s = true) (h2 : strLe s t = true) :
    strLe r t = true := by
  unfold strLe strLt at h1 h2 ⊢
  simp only [Bool.not_eq_true'] at h1 h2 ⊢
  by_contra hc
  rw [Bool.not_eq_false] at hc
  rcases lexLt_trichot s.data r.data with h | h | h
  · rw [h] at h1; exact absurd h1 (by simp)
  · rw [← h] at hc; rw [hc] at h2; exact absurd h2 (by simp)
  · have := lexLt_trans hc h
    rw [this] at h2
    exact absurd h2 (by simp)

theorem strLt_of_strLe_ne {s t : String} (h : strLe s t = true) (hne : s ≠ t) :
    strLt s t = true := by
  unfold strLe at h
  simp only [Bool.not_eq_true'] at h
  rcases lexLt_trichot s.data t.data with h1 | h1 | h1
  · exact h1
  · exact absurd (string_eq_of_data_eq h1) hne
  · rw [strLt] at h; rw [h1] at h; exact absurd h (by simp)

theorem min255_min255_add (a b : Nat) : min 255 (min 255 a + b) = min 255 (a + b) := by
  omega

theorem satAdd_le (a b : Nat) : satAdd a b ≤ 255 := by
  unfold satAdd; omega

theorem lookupD_mem {d c : Nat} : ∀ {m : List (Nat × Nat)}, lookupD d m = some c → (d, c) ∈ m
  | [], h => by simp [lookupD] at h
  | (k, v) :: rest, h => by
    rw [lookupD] at h
    by_cases hk : k = d
    · rw [if_pos hk] at h
      cases h
      subst hk
      exact List.mem_cons_self _ _
    · rw [if_neg hk] at h
      exact List.mem_cons_of_mem _ (lookupD_mem h)

theorem lookupD_eq_none_iff {d : Nat} : ∀ {m : List (Nat × Nat)},
    lookupD d m = none ↔ d ∉ m.map Prod.fst
  | [] => by simp [lookupD]
  | (k, v) :: rest => by
    rw [lookupD]
    by_cases hk : k = d
    · subst hk
      simp
    · rw [if_neg hk]
      rw [lookupD_eq_none_iff, List.map_cons]
      constructor
      · intro hn hmem
        rcases List.mem_cons.mp hmem with rfl | hmem
        · exact hk rfl
        · exact hn hmem
      · intro hn hmem
        exact hn (List.mem_cons_of_mem _ hmem)

theorem lookupD_upsertSat_self (m : List (Nat × Nat)) (d s : Nat) :
    lookupD d (upsertSat m d s) = some (satAdd ((lookupD d m).getD 0) s) := by
  induction m with
  | nil => simp [upsertSat, lookupD]
  | cons p rest ih =>
    obtain ⟨k, v⟩ := p
    rw [upsertSat]
    by_cases hk : k = d
    · subst hk
      simp [lookupD]
    · rw [if_neg hk, lookupD, if_neg hk, lookupD, if_neg hk]
      exact ih

theorem lookupD_upsertSat_other {d d0 : Nat} (h : d ≠ d0) (m : List (Nat × Nat)) (s : Nat) :
    lookupD d (upsertSat m d0 s) = lookupD d m := by
  induction m with
  | nil =>
    have hne : ¬ d0 = d := fun e => h e.symm
    simp [upsertSat, lookupD, hne]
  | cons p rest ih =>
    obtain ⟨k, v⟩ := p
    rw [upsertSat]
    by_cases hk : k = d0
    · subst hk
      have hne : ¬ k = d := fun e => h e.symm
      rw [if_pos rfl, lookupD, if_neg hne, lookupD, if_neg hne]
    · rw [if_neg hk, lookupD, lookupD]
      by_cases hkd : k = d
      · rw [if_pos hkd, if_pos hkd]
      · rw [if_neg hkd, if_neg hkd]
        exact ih

theorem upsertSat_map_fst (m : List (Nat × Nat)) (d s : Nat) :
    (upsertSat m d s).map Prod.fst =
      if d ∈ m.map Prod.fst then m.map Prod.fst else m.map Prod.fst ++ [d] := by
  induction m with
  | nil => simp [upsertSat]
  | cons p rest ih =>
    obtain ⟨k, v⟩ := p
    rw [upsertSat]
    by_cases hk : k = d
    · subst hk
      simp
    · rw [if_neg hk]
      have hne : ¬ d = k := fun e => hk e.symm
      simp only [List.map_cons, List.mem_cons, hne, false_or]
      rw [ih]
      by_cases hdm : d ∈ rest.map Prod.fst
      · rw [if_pos hdm, if_pos hdm]
      · rw [if_neg hdm, if_neg hdm]
        simp

theorem upsertSat_val_le {m : List (Nat × Nat)} (hm : ∀ p ∈ m, p.2 ≤ 255) (d s : Nat) :
    ∀ p ∈ upsertSat m d s, p.2 ≤ 255 := by
  induction m with
  | nil =>
    intro p hp
    rw [upsertSat] at hp
    rcases List.mem_cons.mp hp with rfl | h
    · exact satAdd_le _ _
    · exact absurd h (List.not_mem_nil _)
  | cons q rest ih =>
    obtain ⟨k, v⟩ := q
    intro p hp
    rw [upsertSat] at hp
    by_cases hk : k = d
    · rw [if_pos hk] at hp
      rcases List.mem_cons.mp hp with rfl | h
      · exact satAdd_le _ _
      · exact hm _ (List.mem_cons_of_mem _ h)
    · rw [if_neg hk] at hp
      rcases List.mem_cons.mp hp with rfl | h
      · exact hm _ (List.mem_cons_self _ _)
      · exact ih (fun q hq => hm q (List.mem_cons_of_mem _ hq)) _ h

theorem scoreFold_val_le : ∀ (es : List (Nat × Nat)) {m : List (Nat × Nat)},
    (∀ p ∈ m, p.2 ≤ 255) → ∀ p ∈ scoreFold m es, p.2 ≤ 255
  | [], _, hm => hm
  | e :: rest, m, hm => by
    rw [scoreFold, List.foldl_cons]
    exact scoreFold_val_le rest (upsertSat_val_le hm e.1 e.2)

theorem sumFor_cons (e : Nat × Nat) (es : List (Nat × Nat)) (d : Nat) :
    sumFor (e :: es) d = (if e.1 = d then e.2 else 0) + sumFor es d := by
  unfold sumFor
  by_cases h : e.1 = d
  · rw [if_pos h, List.filter_cons_of_pos (by simp [h])]
    simp
  · rw [if_neg h, List.filter_cons_of_neg (by simp [h])]
    simp

/-- The accumulated map's lookups: each document's entry is the saturated
sum `min 255` of its initial value and all its contributions, present iff
the document appears in the initial map or among the contributions. -/
theorem lookupD_scoreFold : ∀ (es : List (Nat × Nat)) (m : List (Nat × Nat)),
    (∀ p ∈ m, p.2 ≤ 255) → ∀ d,
    lookupD d (scoreFold m es) =
      match lookupD d m with
      | some c => some (min 255 (c + sumFor es d))
      | none => if d ∈ es.map Prod.fst then some (min 255 (sumFor es d)) else none
  | [], m, hm, d => by
    rw [scoreFold]
    simp only [List.foldl_nil]
    cases hc : lookupD d m with
    | none => simp
    | some c =>
      have hc255 : c ≤ 255 := hm _ (lookupD_mem hc)
      have h0 : sumFor [] d = 0 := rfl
      rw [h0]
      congr 1
      omega
  | (d0, s0) :: rest, m, hm, d => by
    rw [scoreFold, List.foldl_cons]
    have hrec := lookupD_scoreFold rest (upsertSat m d0 s0) (upsertSat_val_le hm d0 s0) d
    rw [scoreFold] at hrec
    rw [hrec]
    by_cases hd : d = d0
    · subst hd
      rw [lookupD_upsertSat_self, sumFor_cons]
      have e1 : (if ((d, s0) : Nat × Nat).1 = d then s0 else 0) = s0 := if_pos rfl
      rw [e1]
      cases hc : lookupD d m with
      | none =>
        simp only [Option.getD_none]
        unfold satAdd
        rw [Nat.zero_add, min255_min255_add]
        have hmem : d ∈ ((d, s0) :: rest).map Prod.fst := by simp
        rw [if_pos hmem]
      | some c =>
        simp only [Option.getD_some]
        unfold satAdd
        rw [min255_min255_add, Nat.add_assoc]
    · rw [lookupD_upsertSat_other hd, sumFor_cons]
      have e1 : (if ((d0, s0) : Nat × Nat).1 = d then s0 else 0) = 0 := if_neg fun e => hd e.symm
      rw [e1, Nat.zero_add]
      cases hc : lookupD d m with
      | none =>
        have hiff : d ∈ ((d0, s0) :: rest).map Prod.fst ↔ d ∈ rest.map Prod.fst := by
          simp [hd]
        simp only [hiff]
      | some c => rfl

theorem scoreFold_keys_nodup : ∀ (es : List (Nat × Nat)) {m : List (Nat × Nat)},
    (m.map Prod.fst).Nodup → ((scoreFold m es).map Prod.fst).Nodup
  | [], _, hm => hm
  | e :: rest, m, hm => by
    rw [scoreFold, List.foldl_cons]
    refine scoreFold_keys_nodup rest ?_
    rw [upsertSat_map_fst]
    by_cases h : e.1 ∈ m.map Prod.fst
    · rw [if_pos h]; exact hm
    · rw [if_neg h]
      rw [List.nodup_append]
      exact ⟨hm, List.nodup_singleton _,
        fun x hx hxd => h (List.mem_singleton.mp hxd ▸ hx)⟩

theorem lookupD_cons_self (d v : Nat) (t : List (Nat × Nat)) :
    lookupD d ((d, v) :: t) = some v := by
  rw [lookupD, if_pos rfl]

theorem lookupD_cons_other {d k : Nat} (h : k ≠ d) (v : Nat) (t : List (Nat × Nat)) :
    lookupD d ((k, v) :: t) = lookupD d t := by
  rw [lookupD, if_neg h]

theorem exists_split_of_lookupD {d v : Nat} : ∀ {l : List (Nat × Nat)},
    lookupD d l = some v → ∃ a b, l = a ++ (d, v) :: b ∧ d ∉ a.map Prod.fst
  | [], h => by simp [lookupD] at h
  | (k, w) :: t, h => by
    by_cases hk : k = d
    · subst hk
      rw [lookupD_cons_self] at h
      cases h
      exact ⟨[], t, rfl, by simp⟩
    · rw [lookupD_cons_other hk] at h
      obtain ⟨a, b, rfl, ha⟩ := exists_split_of_lookupD h
      refine ⟨(k, w) :: a, b, rfl, ?_⟩
      rw [List.map_cons]
      intro hmem
      rcases List.mem_cons.mp hmem with h1 | h1
      · exact hk h1.symm
      · exact ha h1

theorem lookupD_append_mid {d' d : Nat} (hne : d' ≠ d) (v : Nat) :
    ∀ (a b : List (Nat × Nat)), lookupD d' (a ++ (d, v) :: b) = lookupD d' (a ++ b)
  | [], b => by rw [List.nil_append, lookupD_cons_other (fun e => hne e.symm), List.nil_append]
  | (k, w) :: a, b => by
    rw [List.cons_append, List.cons_append, lookupD, lookupD]
    by_cases hk : k = d'
    · rw [if_pos hk, if_pos hk]
    · rw [if_neg hk, if_neg hk]
      exact lookupD_append_mid hne v a b

/-- Two association lists with duplicate-free keys and identical lookups
are permutations of each other. -/
theorem assoc_perm_of_lookupD_eq : ∀ {l1 l2 : List (Nat × Nat)},
    (l1.map Prod.fst).Nodup → (l2.map Prod.fst).Nodup →
    (∀ d, lookupD d l1 = lookupD d l2) → l1.Perm l2
  | [], l2, _, _, h => by
    cases l2 with
    | nil => exact List.Perm.refl _
    | cons p t =>
      obtain ⟨d, v⟩ := p
      have := (h d).symm
      rw [lookupD_cons_self] at this
      simp [lookupD] at this
  | (d, v) :: t, l2, h1, h2, h => by
    have hd : lookupD d l2 = some v := by
      have h0 := h d
      rw [lookupD_cons_self] at h0
      exact h0.symm
    obtain ⟨a, b, rfl, ha⟩ := exists_split_of_lookupD hd
    have perm2 : (a ++ (d, v) :: b).Perm ((d, v) :: (a ++ b)) := List.perm_middle
    have h2' : (((d, v) :: (a ++ b)).map Prod.fst).Nodup := by
      have := (perm2.map Prod.fst).nodup_iff.mp h2
      exact this
    rw [List.map_cons, List.nodup_cons] at h2'
    obtain ⟨hdnot, hab⟩ := h2'
    rw [List.map_cons, List.nodup_cons] at h1
    obtain ⟨hdt, ht⟩ := h1
    have hlooks : ∀ d', lookupD d' t = lookupD d' (a ++ b) := by
      intro d'
      by_cases hdd : d' = d
      · subst hdd
        rw [lookupD_eq_none_iff.mpr hdt, Eq.comm, lookupD_eq_none_iff]
        exact hdnot
      · have := h d'
        rw [lookupD_cons_other (fun e => hdd e.symm)] at this
        rw [this]
        exact lookupD_append_mid hdd v a b
    exact ((assoc_perm_of_lookupD_eq ht hab hlooks).cons (d, v)).trans perm2.symm

theorem fromStrings_fold (comp : Compressor) :
    ∀ (ss : List (List Byte)) (off0 : List Nat) (d0 : List Byte),
    ss.foldl (fun (acc : List Nat × List Byte) s =>
        (acc.1 ++ [acc.2.length % 4294967296], acc.2 ++ comp.compress s)) (off0, d0) =
      (off0 ++ offsetsFrom comp d0.length ss, d0 ++ ss.flatMap comp.compress)
  | [], off0, d0 => by simp [offsetsFrom]
  | s :: ss, off0, d0 => by
    rw [List.foldl_cons, fromStrings_fold comp ss, offsetsFrom]
    simp [List.append_assoc]

theorem offsetsFrom_length (comp : Compressor) :
    ∀ (ss : List (List Byte)) (base : Nat), (offsetsFrom comp base ss).length = ss.length
  | [], _ => rfl
  | s :: ss, base => by
    rw [offsetsFrom, List.length_cons, offsetsFrom_length comp ss, List.length_cons]

theorem offsetsFrom_getD (comp : Compressor) :
    ∀ (ss : List (List Byte)) (base i : Nat), i < ss.length →
      (offsetsFrom comp base ss).getD i 0 = (base + compLen comp (ss.take i)) % 4294967296
  | [], _, i, hi => by simp at hi
  | s :: ss, base, 0, _ => by simp [offsetsFrom, compLen]
  | s :: ss, base, i + 1, hi => by
    rw [offsetsFrom]
    have hstep : ((base % 4294967296 ::
        offsetsFrom comp (base + (comp.compress s).length) ss).getD (i + 1) 0) =
        (offsetsFrom comp (base + (comp.compress s).length) ss).getD i 0 := rfl
    rw [hstep, offsetsFrom_getD comp ss _ i (by simpa using hi)]
    have htake : (s :: ss).take (i + 1) = s :: ss.take i := rfl
    rw [htake]
    have harg : base + (comp.compress s).length + compLen comp (ss.take i) =
        base + compLen comp (s :: ss.take i) := by
      unfold compLen
      simp
      omega
    rw [harg]

theorem length_flatMap_compress (comp : Compressor) (ss : List (List Byte)) :
    (ss.flatMap comp.compress).length = compLen comp ss := by
  rw [List.length_flatMap]
  rfl

theorem compLen_append (comp : Compressor) (a b : List (List Byte)) :
    compLen comp (a ++ b) = compLen comp a + compLen comp b := by
  unfold compLen
  rw [List.map_append, List.sum_append]

theorem compLen_take_le (comp : Compressor) (ss : List (List Byte)) (i : Nat) :
    compLen comp (ss.take i) ≤ compLen comp ss := by
  conv_rhs => rw [← List.take_append_drop i ss]
  rw [compLen_append]
  omega

theorem from_strings_offsets (comp : Compressor) (ss : List (List Byte)) :
    (FsstStrVec.from_strings comp ss).offsets = offsetsFrom comp 0 ss := by
  unfold FsstStrVec.from_strings
  rw [fromStrings_fold comp ss [] []]
  simp

theorem from_strings_data (comp : Compressor) (ss : List (List Byte)) :
    (FsstStrVec.from_strings comp ss).data = ss.flatMap comp.compress := by
  unfold FsstStrVec.from_strings
  rw [fromStrings_fold comp ss [] []]
  simp

theorem from_strings_dict (comp : Compressor) (ss : List (List Byte)) :
    (FsstStrVec.from_strings comp ss).dict_syms = comp.dict_syms ∧
      (FsstStrVec.from_strings comp ss).dict_lens = comp.dict_lens := by
  unfold FsstStrVec.from_strings
  rw [fromStrings_fold comp ss [] []]
  exact ⟨rfl, rfl⟩

theorem from_strings_len (comp : Compressor) (ss : List (List Byte)) :
    (FsstStrVec.from_strings comp ss).len = ss.length := by
  rw [FsstStrVec.len, from_strings_offsets, offsetsFrom_length]

/-- The `i`-th compressed block of the concatenated payload, recovered by the
offset arithmetic of `FsstStrVec::get`. -/
theorem from_strings_get (comp : Compressor) (ss : List (List Byte)) (i : Nat)
    (hi : i < ss.length) (hsz : compLen comp ss < 4294967296) :
    (FsstStrVec.from_strings comp ss).get i =
      some (fsstDecompress (symbolTable comp.dict_syms comp.dict_lens)
        (comp.compress (ss.getD i []))) := by
  have hdict := from_strings_dict comp ss
  rw [FsstStrVec.get, from_strings_len, from_strings_offsets, from_strings_data,
    hdict.1, hdict.2, if_neg (by omega)]
  rw [offsetsFrom_getD comp ss 0 i hi, Nat.zero_add,
    Nat.mod_eq_of_lt (lt_of_le_of_lt (compLen_take_le comp ss i) hsz)]
  have hsplitFlat : ss.flatMap comp.compress =
      (ss.take i).flatMap comp.compress ++ (ss.drop i).flatMap comp.compress := by
    conv_lhs => rw [← List.take_append_drop i ss]
    rw [List.flatMap_append]
  have hdrop : (ss.flatMap comp.compress).drop (compLen comp (ss.take i)) =
      (ss.drop i).flatMap comp.compress := by
    rw [hsplitFlat]
    rw [List.drop_left' (by rw [length_flatMap_compress])]
  have hdropi : ss.drop i = ss.getD i [] :: ss.drop (i + 1) := by
    rw [List.getD_eq_getElem ss [] hi]
    exact List.drop_eq_getElem_cons hi
  have hslice : ((ss.flatMap comp.compress).drop (compLen comp (ss.take i))).take
      ((comp.compress (ss.getD i [])).length) = comp.compress (ss.getD i []) := by
    rw [hdrop, hdropi, List.flatMap_cons, List.take_left]
  have htake : ss.take (i + 1) = ss.take i ++ [ss.getD i []] := by
    rw [List.take_succ, List.getElem?_eq_getElem hi, List.getD_eq_getElem ss [] hi]
    rfl
  have hsub : compLen comp (ss.take i) + compLen comp [ss.getD i []] -
      compLen comp (ss.take i) = (comp.compress (ss.getD i [])).length := by
    unfold compLen
    simp
  by_cases hlast : i + 1 < ss.length
  · rw [if_pos hlast, offsetsFrom_getD comp ss 0 (i + 1) hlast, Nat.zero_add,
      Nat.mod_eq_of_lt (lt_of_le_of_lt (compLen_take_le comp ss (i + 1)) hsz),
      htake, compLen_append, hsub, hslice]
  · rw [if_neg hlast, length_flatMap_compress]
    have hfull : ss.take (i + 1) = ss := by
      have : i + 1 = ss.length := by omega
      rw [this]
      exact List.take_length ..
    have hclen : compLen comp ss =
        compLen comp (ss.take i) + compLen comp [ss.getD i []] := by
      conv_lhs => rw [← hfull]
      rw [htake, compLen_append]
    rw [hclen, hsub, hslice]

theorem docStrings_cons (d : Document) (ds : List Document) :
    docStrings (d :: ds) =
      [strBytes d.title, strBytes d.category, strBytes d.href, strBytes d.body] ++
        docStrings ds := by
  unfold docStrings
  rw [List.flatMap_cons]

theorem docStrings_length (documents : List Document) :
    (docStrings documents).length = 4 * documents.length := by
  induction documents with
  | nil => rfl
  | cons d ds ih =>
    rw [docStrings_cons, List.length_append, ih, List.length_cons]
    simp
    omega

theorem docStrings_getD (documents : List Document) :
    ∀ (i : Nat) (hi : i < documents.length),
      (docStrings documents).getD (4 * i) [] = strBytes (documents.get ⟨i, hi⟩).title ∧
      (docStrings documents).getD (4 * i + 1) [] = strBytes (documents.get ⟨i, hi⟩).category ∧
      (docStrings documents).getD (4 * i + 2) [] = strBytes (documents.get ⟨i, hi⟩).href ∧
      (docStrings documents).getD (4 * i + 3) [] = strBytes (documents.get ⟨i, hi⟩).body := by
  induction documents with
  | nil => intro i hi; simp at hi
  | cons d ds ih =>
    intro i hi
    match i with
    | 0 => exact ⟨rfl, rfl, rfl, rfl⟩
    | i + 1 =>
      have hrest := ih i (by simpa using hi)
      rw [docStrings_cons]
      have hskip : ∀ j, (([strBytes d.title, strBytes d.category, strBytes d.href,
          strBytes d.body] ++ docStrings ds).getD (j + 4) []) = (docStrings ds).getD j [] :=
        fun j => rfl
      refine ⟨?_, ?_, ?_, ?_⟩
      · rw [show 4 * (i + 1) = 4 * i + 4 by omega, hskip (4 * i)]
        exact hrest.1
      · rw [show 4 * (i + 1) + 1 = (4 * i + 1) + 4 by omega, hskip (4 * i + 1)]
        exact hrest.2.1
      · rw [show 4 * (i + 1) + 2 = (4 * i + 2) + 4 by omega, hskip (4 * i + 2)]
        exact hrest.2.2.1
      · rw [show 4 * (i + 1) + 3 = (4 * i + 3) + 4 by omega, hskip (4 * i + 3)]
        exact hrest.2.2.2

theorem mem_dedupKeep : ∀ {seen l : List String} {a : String}, a ∈ dedupKeep seen l → a ∈ l
  | seen, x :: xs, a, h => by
    rw [dedupKeep] at h
    by_cases hx : x ∈ seen
    · rw [if_pos hx] at h
      exact List.mem_cons_of_mem _ (mem_dedupKeep h)
    · rw [if_neg hx] at h
      rcases List.mem_cons.mp h with rfl | h2
      · exact List.mem_cons_self _ _
      · exact List.mem_cons_of_mem _ (mem_dedupKeep h2)

theorem lookup_of_mem_nodup {α : Type _} {β : Type _} [BEq α] [LawfulBEq α] :
    ∀ {l : List (α × β)} {a : α} {b : β},
      (l.map Prod.fst).Nodup → (a, b) ∈ l → List.lookup a l = some b
  | (k, v) :: t, a, b, hnd, hm => by
    rw [List.map_cons, List.nodup_cons] at hnd
    rcases List.mem_cons.mp hm with he | hm2
    · cases he
      simp [List.lookup]
    · have hne : a ≠ k := by
        intro he2
        subst he2
        exact hnd.1 (List.mem_map.mpr ⟨(a, b), hm2, rfl⟩)
      have hbeq : (a == k) = false := beq_eq_false_iff_ne.mpr hne
      simp only [List.lookup, hbeq]
      exact lookup_of_mem_nodup hnd.2 hm2

theorem lookup_mem {α : Type _} {β : Type _} [BEq α] [LawfulBEq α] :
    ∀ {l : List (α × β)} {a : α} {b : β}, List.lookup a l = some b → (a, b) ∈ l
  | [], a, b, h => by simp [List.lookup] at h
  | (k, v) :: t, a, b, h => by
    simp only [List.lookup] at h
    cases hbeq : a == k with
    | true =>
      rw [hbeq] at h
      simp only [Option.some_inj] at h
      have : a = k := eq_of_beq hbeq
      subst this
      subst h
      exact List.mem_cons_self _ _
    | false =>
      rw [hbeq] at h
      exact List.mem_cons_of_mem _ (lookup_mem h)

theorem ratToU8_mono {a b : ℚ} (h : a ≤ b) : ratToU8 a ≤ ratToU8 b := by
  unfold ratToU8
  by_cases ha : a < 0
  · rw [if_pos ha]
    exact Nat.zero_le _
  · rw [if_neg ha, if_neg (by intro hb; exact ha (lt_of_le_of_lt h hb))]
    have hf : a.floor ≤ b.floor := Int.floor_le_floor (α := ℚ) h
    omega

theorem ratToU8_le (q : ℚ) : ratToU8 q ≤ 255 := by
  unfold ratToU8
  by_cases h : q < 0
  · rw [if_pos h]
    omega
  · rw [if_neg h]
    omega

theorem nodup_snoc {α : Type _} {l : List α} {a : α} (h : l.Nodup) (ha : a ∉ l) :
    (l ++ [a]).Nodup := by
  rw [List.nodup_append]
  exact ⟨h, List.nodup_singleton _, fun x hx hxa => ha (List.mem_singleton.mp hxa ▸ hx)⟩

/-- The explicit-keyword pass keeps every emitted key in the seen set and
never emits a key twice. -/
theorem addExplicit_inv (sw : List String) :
    ∀ (ks seen : List String) (acc : List (String × ℚ)),
      (∀ p ∈ acc, p.1 ∈ seen) → (acc.map Prod.fst).Nodup →
      (∀ p ∈ (addExplicit sw seen acc ks).1, p.1 ∈ (addExplicit sw seen acc ks).2) ∧
      ((addExplicit sw seen acc ks).1.map Prod.fst).Nodup
  | [], seen, acc, hsub, hnd => ⟨hsub, hnd⟩
  | k :: rest, seen, acc, hsub, hnd => by
    rw [addExplicit]
    by_cases hc : normalizeWord k ≠ "" ∧ normalizeWord k ∉ sw ∧ normalizeWord k ∉ seen
    · rw [if_pos hc]
      refine addExplicit_inv sw rest _ _ ?_ ?_
      · intro p hp
        rcases List.mem_append.mp hp with h | h
        · exact List.mem_append_left _ (hsub p h)
        · rw [List.mem_singleton.mp h]
          exact List.mem_append_right _ (List.mem_singleton_self _)
      · rw [List.map_append]
        exact nodup_snoc hnd fun hmem => by
          obtain ⟨p, hp, hpe⟩ := List.mem_map.mp hmem
          have hps : p.1 ∈ seen := hsub p hp
          rw [hpe] at hps
          exact hc.2.2 hps
    · rw [if_neg hc]
      exact addExplicit_inv sw rest _ _ hsub hnd

/-- The title pass keeps every emitted key in the seen set and never emits a
key twice. -/
theorem addTitle_inv :
    ∀ (tks seen : List String) (acc : List (String × ℚ)),
      (∀ p ∈ acc, p.1 ∈ seen) → (acc.map Prod.fst).Nodup →
      (∀ p ∈ (addTitle seen acc tks).1, p.1 ∈ (addTitle seen acc tks).2) ∧
      ((addTitle seen acc tks).1.map Prod.fst).Nodup
  | [], seen, acc, hsub, hnd => ⟨hsub, hnd⟩
  | tk :: rest, seen, acc, hsub, hnd => by
    rw [addTitle]
    by_cases hc : tk ∉ seen
    · rw [if_pos hc]
      refine addTitle_inv rest _ _ ?_ ?_
      · intro p hp
        rcases List.mem_append.mp hp with h | h
        · exact List.mem_append_left _ (hsub p h)
        · rw [List.mem_singleton.mp h]
          exact List.mem_append_right _ (List.mem_singleton_self _)
      · rw [List.map_append]
        exact nodup_snoc hnd fun hmem => by
          obtain ⟨p, hp, hpe⟩ := List.mem_map.mp hmem
          have hps : p.1 ∈ seen := hsub p hp
          rw [hpe] at hps
          exact hc hps
    · rw [if_neg hc]
      exact addTitle_inv rest _ _ hsub hnd

/-- The RAKE body pass never emits a key twice. -/
theorem addBody_nodup :
    ∀ (ps : List (String × ℚ)) (seen : List String) (acc : List (String × ℚ))
      (single double : Nat),
      (∀ p ∈ acc, p.1 ∈ seen) → (acc.map Prod.fst).Nodup →
      ((addBody seen acc single double ps).map Prod.fst).Nodup
  | [], _, acc, _, _, _, hnd => hnd
  | (phrase, score) :: rest, seen, acc, single, double, hsub, hnd => by
    simp only [addBody]
    by_cases h1 : strToLower phrase ∈ seen
    · rw [if_pos h1]
      exact addBody_nodup rest _ _ _ _ hsub hnd
    · rw [if_neg h1]
      have hkey : ((acc ++ [(strToLower phrase, score)]).map Prod.fst).Nodup := by
        rw [List.map_append]
        refine nodup_snoc hnd fun hmem => ?_
        obtain ⟨p, hp, hpe⟩ := List.mem_map.mp hmem
        have hps : p.1 ∈ seen := hsub p hp
        rw [hpe] at hps
        exact h1 hps
      have hsub' : ∀ p ∈ acc ++ [(strToLower phrase, score)],
          p.1 ∈ seen ++ [strToLower phrase] := by
        intro p hp
        rcases List.mem_append.mp hp with h | h
        · exact List.mem_append_left _ (hsub p h)
        · rw [List.mem_singleton.mp h]
          exact List.mem_append_right _ (List.mem_singleton_self _)
      by_cases h2 : phrase.data.count ' ' = 0 ∧ 0 < single
      · rw [if_pos h2]
        by_cases h3 : single - 1 = 0 ∧ double = 0
        · rw [if_pos h3]
          exact hkey
        · rw [if_neg h3]
          exact addBody_nodup rest _ _ _ _ hsub' hkey
      · rw [if_neg h2]
        by_cases h4 : phrase.data.count ' ' = 1 ∧ 0 < double
        · rw [if_pos h4]
          by_cases h5 : single = 0 ∧ double - 1 = 0
          · rw [if_pos h5]
            exact hkey
          · rw [if_neg h5]
            exact addBody_nodup rest _ _ _ _ hsub' hkey
        · rw [if_neg h4]
          exact addBody_nodup rest _ _ _ _ hsub hnd

/-- Each document's extracted keyword list has pairwise distinct keys (the
`keyword_set` hash set guards every emission). -/
theorem extractKeywords_nodup (sw : List String) (rake : String → List (String × ℚ))
    (doc : Document) : ((extractKeywords sw rake doc).map Prod.fst).Nodup := by
  unfold extractKeywords
  have h1 := addExplicit_inv sw (doc.keywords.getD []) [] []
    (fun p hp => absurd hp (List.not_mem_nil _)) List.nodup_nil
  have h2 := addTitle_inv (titleKeywords sw doc.title) _ _ h1.1 h1.2
  exact addBody_nodup (rake doc.body) _ _ 5 3 h2.1 h2.2

theorem addExplicit_mem (sw : List String) :
    ∀ (ks seen : List String) (acc : List (String × ℚ)) (p : String × ℚ),
      p ∈ (addExplicit sw seen acc ks).1 → p ∈ acc ∨ ∃ w, p.1 = normalizeWord w
  | [], _, acc, p, hp => Or.inl hp
  | k :: rest, seen, acc, p, hp => by
    rw [addExplicit] at hp
    by_cases hc : normalizeWord k ≠ "" ∧ normalizeWord k ∉ sw ∧ normalizeWord k ∉ seen
    · rw [if_pos hc] at hp
      rcases addExplicit_mem sw rest _ _ p hp with h | h
      · rcases List.mem_append.mp h with h2 | h2
        · exact Or.inl h2
        · rw [List.mem_singleton.mp h2]
          exact Or.inr ⟨k, rfl⟩
      · exact Or.inr h
    · rw [if_neg hc] at hp
      exact addExplicit_mem sw rest _ _ p hp

theorem addTitle_mem :
    ∀ (tks seen : List String) (acc : List (String × ℚ)) (p : String × ℚ),
      p ∈ (addTitle seen acc tks).1 → p ∈ acc ∨ p.1 ∈ tks
  | [], _, acc, p, hp => Or.inl hp
  | tk :: rest, seen, acc, p, hp => by
    rw [addTitle] at hp
    by_cases hc : tk ∉ seen
    · rw [if_pos hc] at hp
      rcases addTitle_mem rest _ _ p hp with h | h
      · rcases List.mem_append.mp h with h2 | h2
        · exact Or.inl h2
        · rw [List.mem_singleton.mp h2]
          exact Or.inr (List.mem_cons_self _ _)
      · exact Or.inr (List.mem_cons_of_mem _ h)
    · rw [if_neg hc] at hp
      rcases addTitle_mem rest _ _ p hp with h | h
      · exact Or.inl h
      · exact Or.inr (List.mem_cons_of_mem _ h)

theorem addBody_mem :
    ∀ (ps : List (String × ℚ)) (seen : List String) (acc : List (String × ℚ))
      (single double : Nat) (p : String × ℚ),
      p ∈ addBody seen acc single double ps →
      p ∈ acc ∨ ∃ pr ∈ ps, p.1 = strToLower pr.1
  | [], _, acc, _, _, p, hp => Or.inl hp
  | (phrase, score) :: rest, seen, acc, single, double, p, hp => by
    simp only [addBody] at hp
    have hsnoc : p ∈ acc ++ [(strToLower phrase, score)] →
        p ∈ acc ∨ ∃ pr ∈ (phrase, score) :: rest, p.1 = strToLower pr.1 := by
      intro h
      rcases List.mem_append.mp h with h2 | h2
      · exact Or.inl h2
      · rw [List.mem_singleton.mp h2]
        exact Or.inr ⟨(phrase, score), List.mem_cons_self _ _, rfl⟩
    have hrec : p ∈ addBody (seen ++ [strToLower phrase])
        (acc ++ [(strToLower phrase, score)]) (single - 1) double rest →
        p ∈ acc ∨ ∃ pr ∈ (phrase, score) :: rest, p.1 = strToLower pr.1 := by
      intro h
      rcases addBody_mem rest _ _ _ _ p h with h2 | h2
      · exact hsnoc h2
      · obtain ⟨pr, hpr, he⟩ := h2
        exact Or.inr ⟨pr, List.mem_cons_of_mem _ hpr, he⟩
    have hrec2 : p ∈ addBody (seen ++ [strToLower phrase])
        (acc ++ [(strToLower phrase, score)]) single (double - 1) rest →
        p ∈ acc ∨ ∃ pr ∈ (phrase, score) :: rest, p.1 = strToLower pr.1 := by
      intro h
      rcases addBody_mem rest _ _ _ _ p h with h2 | h2
      · exact hsnoc h2
      · obtain ⟨pr, hpr, he⟩ := h2
        exact Or.inr ⟨pr, List.mem_cons_of_mem _ hpr, he⟩
    have hrec3 : p ∈ addBody seen acc single double rest →
        p ∈ acc ∨ ∃ pr ∈ (phrase, score) :: rest, p.1 = strToLower pr.1 := by
      intro h
      rcases addBody_mem rest _ _ _ _ p h with h2 | h2
      · exact Or.inl h2
      · obtain ⟨pr, hpr, he⟩ := h2
        exact Or.inr ⟨pr, List.mem_cons_of_mem _ hpr, he⟩
    by_cases h1 : strToLower phrase ∈ seen
    · rw [if_pos h1] at hp
      exact hrec3 hp
    · rw [if_neg h1] at hp
      by_cases h2 : phrase.data.count ' ' = 0 ∧ 0 < single
      · rw [if_pos h2] at hp
        by_cases h3 : single - 1 = 0 ∧ double = 0
        · rw [if_pos h3] at hp
          exact hsnoc hp
        · rw [if_neg h3] at hp
          exact hrec hp
      · rw [if_neg h2] at hp
        by_cases h4 : phrase.data.count ' ' = 1 ∧ 0 < double
        · rw [if_pos h4] at hp
          by_cases h5 : single = 0 ∧ double - 1 = 0
          · rw [if_pos h5] at hp
            exact hsnoc hp
          · rw [if_neg h5] at hp
            exact hrec2 hp
        · rw [if_neg h4] at hp
          exact hrec3 hp

theorem titleKeywords_shape (sw : List String) (title : String) :
    ∀ tk ∈ titleKeywords sw title, ∃ w, tk = normalizeWord w := by
  intro tk htk
  unfold titleKeywords at htk
  have h1 := mem_dedupKeep htk
  have h2 := List.mem_of_mem_filter h1
  obtain ⟨w, _, he⟩ := List.mem_map.mp h2
  exact ⟨w, he.symm⟩

/-- Every extracted keyword is either a normalized token (explicit keywords
and title words) or the bare lower-casing of a RAKE phrase (body keywords,
which the source does not edge-trim). -/
theorem extractKeywords_shape (sw : List String) (rake : String → List (String × ℚ))
    (doc : Document) :
    ∀ p ∈ extractKeywords sw rake doc,
      (∃ w, p.1 = normalizeWord w) ∨ ∃ pr ∈ rake doc.body, p.1 = strToLower pr.1 := by
  intro p hp
  unfold extractKeywords at hp
  rcases addBody_mem (rake doc.body) _ _ 5 3 p hp with h | h
  · rcases addTitle_mem (titleKeywords sw doc.title) _ _ p h with h2 | h2
    · rcases addExplicit_mem sw (doc.keywords.getD []) _ _ p h2 with h3 | h3
      · exact absurd h3 (List.not_mem_nil _)
      · exact Or.inl h3
    · exact Or.inl (titleKeywords_shape sw doc.title _ h2)
  · exact Or.inr h

theorem kwInsert_map_fst (m : List (String × List (Nat × ℚ))) (k : String) (v : Nat × ℚ) :
    (kwInsert m k v).map Prod.fst =
      if k ∈ m.map Prod.fst then m.map Prod.fst else m.map Prod.fst ++ [k] := by
  induction m with
  | nil => simp [kwInsert]
  | cons p rest ih =>
    obtain ⟨k', vs⟩ := p
    rw [kwInsert]
    by_cases hk : k' = k
    · subst hk
      simp
    · rw [if_neg hk]
      have hne : ¬ k = k' := fun e => hk e.symm
      simp only [List.map_cons, List.mem_cons, hne, false_or]
      rw [ih]
      by_cases hdm : k ∈ rest.map Prod.fst
      · rw [if_pos hdm, if_pos hdm]
      · rw [if_neg hdm, if_neg hdm]
        simp

theorem kwInsert_forall {P : String × List (Nat × ℚ) → Prop} :
    ∀ {m : List (String × List (Nat × ℚ))} {k : String} {v : Nat × ℚ},
      (∀ p ∈ m, P p) → (∀ l, (k, l) ∈ m → P (k, l ++ [v])) → P (k, [v]) →
      ∀ p ∈ kwInsert m k v, P p
  | [], k, v, _, _, hnew, p, hp => by
    rw [kwInsert] at hp
    rw [List.mem_singleton.mp hp]
    exact hnew
  | (k', vs) :: rest, k, v, hm, hupd, hnew, p, hp => by
    rw [kwInsert] at hp
    by_cases hk : k' = k
    · rw [if_pos hk] at hp
      rcases List.mem_cons.mp hp with rfl | h
      · subst hk
        exact hupd vs (List.mem_cons_self _ _)
      · exact hm _ (List.mem_cons_of_mem _ h)
    · rw [if_neg hk] at hp
      rcases List.mem_cons.mp hp with rfl | h
      · exact hm _ (List.mem_cons_self _ _)
      · exact kwInsert_forall (fun q hq => hm q (List.mem_cons_of_mem _ hq))
          (fun l hl => hupd l (List.mem_cons_of_mem _ hl)) hnew p h

theorem kwInsert_mem_ne :
    ∀ {m : List (String × List (Nat × ℚ))} {k : String} {v : Nat × ℚ}
      {p : String × List (Nat × ℚ)}, p ∈ kwInsert m k v → p.1 ≠ k → p ∈ m
  | [], k, v, p, hp, hne => by
    rw [kwInsert] at hp
    rw [List.mem_singleton.mp hp] at hne
    exact absurd rfl hne
  | (k', vs) :: rest, k, v, p, hp, hne => by
    rw [kwInsert] at hp
    by_cases hk : k' = k
    · rw [if_pos hk] at hp
      rcases List.mem_cons.mp hp with rfl | h
      · rw [hk] at hne
        exact absurd rfl hne
      · exact List.mem_cons_of_mem _ h
    · rw [if_neg hk] at hp
      rcases List.mem_cons.mp hp with rfl | h
      · exact List.mem_cons_self _ _
      · exact List.mem_cons_of_mem _ (kwInsert_mem_ne h hne)

theorem kwInsert_keys_sub {m : List (String × List (Nat × ℚ))} {k a : String} {v : Nat × ℚ}
    (h : a ∈ (kwInsert m k v).map Prod.fst) : a ∈ m.map Prod.fst ∨ a = k := by
  rw [kwInsert_map_fst] at h
  by_cases hk : k ∈ m.map Prod.fst
  · rw [if_pos hk] at h
    exact Or.inl h
  · rw [if_neg hk] at h
    rcases List.mem_append.mp h with h2 | h2
    · exact Or.inl h2
    · exact Or.inr (List.mem_singleton.mp h2)

/-- Inserting one document's extracted keywords (pairwise-distinct keys, all
tagged with the document's position `i`) preserves the keyword-map
invariant: keys are distinct and every posting-source list is non-empty,
strictly increasing in document position, and bounded by `i + 1`. -/
theorem kwFoldDoc_inv :
    ∀ (kvs : List (String × ℚ)) (m : List (String × List (Nat × ℚ))) (i : Nat),
      (kvs.map Prod.fst).Nodup →
      ((m.map Prod.fst).Nodup ∧
        ∀ p ∈ m, p.2 ≠ [] ∧ p.2.Pairwise (fun a b => a.1 < b.1) ∧ ∀ e ∈ p.2, e.1 < i + 1) →
      (∀ p ∈ m, p.1 ∈ kvs.map Prod.fst → ∀ e ∈ p.2, e.1 < i) →
      (((kvs.foldl (fun m kv => kwInsert m kv.1 (i, kv.2)) m).map Prod.fst).Nodup ∧
        ∀ p ∈ kvs.foldl (fun m kv => kwInsert m kv.1 (i, kv.2)) m,
          p.2 ≠ [] ∧ p.2.Pairwise (fun a b => a.1 < b.1) ∧ ∀ e ∈ p.2, e.1 < i + 1)
  | [], m, i, _, hInv, _ => hInv
  | (k0, q0) :: rest, m, i, hnd, hInv, hfresh => by
    rw [List.foldl_cons]
    simp only [List.map_cons, List.nodup_cons] at hnd
    refine kwFoldDoc_inv rest _ i hnd.2 ⟨?_, ?_⟩ ?_
    · rw [kwInsert_map_fst]
      by_cases hk : k0 ∈ m.map Prod.fst
      · rw [if_pos hk]
        exact hInv.1
      · rw [if_neg hk]
        exact nodup_snoc hInv.1 hk
    · refine kwInsert_forall hInv.2 ?_ ?_
      · intro l hl
        have hsmall : ∀ e ∈ l, e.1 < i := by
          refine hfresh (k0, l) hl ?_
          exact List.mem_map.mpr ⟨(k0, q0), List.mem_cons_self _ _, rfl⟩
        have hold := hInv.2 (k0, l) hl
        refine ⟨by simp, ?_, ?_⟩
        · rw [List.pairwise_append]
          exact ⟨hold.2.1, List.pairwise_singleton _ _,
            fun a ha b hb => by rw [List.mem_singleton.mp hb]; exact hsmall a ha⟩
        · intro e he
          rcases List.mem_append.mp he with h | h
          · exact hold.2.2 e h
          · rw [List.mem_singleton.mp h]
            omega
      · exact ⟨by simp, List.pairwise_singleton _ _, fun e he => by
          rw [List.mem_singleton.mp he]; omega⟩
    · intro p hp hpk
      have hne : p.1 ≠ k0 := by
        intro he
        rw [he] at hpk
        exact hnd.1 hpk
      have hpm : p ∈ m := kwInsert_mem_ne hp hne
      refine hfresh p hpm ?_
      exact List.mem_cons_of_mem _ hpk

/-- Folding all documents from position `n` preserves the keyword-map
invariant, with the position bound growing to `n + documents.length`. -/
theorem kwFoldAll_inv (sw : List String) (rake : String → List (String × ℚ)) :
    ∀ (docs : List Document) (n : Nat) (m : List (String × List (Nat × ℚ))),
      ((m.map Prod.fst).Nodup ∧
        ∀ p ∈ m, p.2 ≠ [] ∧ p.2.Pairwise (fun a b => a.1 < b.1) ∧ ∀ e ∈ p.2, e.1 < n) →
      ((((List.enumFrom n docs).foldl
          (fun m p => (extractKeywords sw rake p.2).foldl
            (fun m kv => kwInsert m kv.1 (p.1, kv.2)) m) m).map Prod.fst).Nodup ∧
        ∀ p ∈ (List.enumFrom n docs).foldl
          (fun m p => (extractKeywords sw rake p.2).foldl
            (fun m kv => kwInsert m kv.1 (p.1, kv.2)) m) m,
          p.2 ≠ [] ∧ p.2.Pairwise (fun a b => a.1 < b.1) ∧ ∀ e ∈ p.2, e.1 < n + docs.length)
  | [], n, m, hInv => by
    simp only [List.enumFrom, List.foldl_nil, List.length_nil, Nat.add_zero]
    exact hInv
  | d :: ds, n, m, hInv => by
    rw [List.enumFrom_cons, List.foldl_cons]
    have hdoc := kwFoldDoc_inv (extractKeywords sw rake d) m n
      (extractKeywords_nodup sw rake d)
      ⟨hInv.1, fun p hp => ⟨(hInv.2 p hp).1, (hInv.2 p hp).2.1,
        fun e he => Nat.lt_succ_of_lt ((hInv.2 p hp).2.2 e he)⟩⟩
      (fun p hp _ => hInv.2 p hp |>.2.2)
    have hrec := kwFoldAll_inv sw rake ds (n + 1) _ hdoc
    refine ⟨hrec.1, fun p hp => ?_⟩
    have := hrec.2 p hp
    exact ⟨this.1, this.2.1, fun e he => by have := this.2.2 e he; simp only [List.length_cons]; omega⟩

/-- The keyword map built by `build_index` has duplicate-free keys, and each
value list is non-empty, strictly increasing in document position, and
bounded by the document count. -/
theorem buildKwMap_inv (sw : List String) (rake : String → List (String × ℚ))
    (documents : List Document) :
    (((buildKwMap sw rake documents).map Prod.fst).Nodup ∧
      ∀ p ∈ buildKwMap sw rake documents,
        p.2 ≠ [] ∧ p.2.Pairwise (fun a b => a.1 < b.1) ∧ ∀ e ∈ p.2, e.1 < documents.length) := by
  have h := kwFoldAll_inv sw rake documents 0 []
    ⟨List.nodup_nil, fun p hp => absurd hp (List.not_mem_nil _)⟩
  unfold buildKwMap
  rw [List.enum]
  exact ⟨h.1, fun p hp => by
    have := h.2 p hp
    exact ⟨this.1, this.2.1, fun e he => by have := this.2.2 e he; omega⟩⟩

theorem kwFoldDoc_keys :
    ∀ (kvs : List (String × ℚ)) (m : List (String × List (Nat × ℚ))) (i : Nat) (a : String),
      a ∈ ((kvs.foldl (fun m kv => kwInsert m kv.1 (i, kv.2)) m).map Prod.fst) →
      a ∈ m.map Prod.fst ∨ a ∈ kvs.map Prod.fst
  | [], m, i, a, h => Or.inl h
  | (k0, q0) :: rest, m, i, a, h => by
    rw [List.foldl_cons] at h
    rcases kwFoldDoc_keys rest _ i a h with h2 | h2
    · rcases kwInsert_keys_sub h2 with h3 | h3
      · exact Or.inl h3
      · exact Or.inr (by rw [h3]; exact List.mem_map.mpr ⟨(k0, q0), List.mem_cons_self _ _, rfl⟩)
    · exact Or.inr (List.mem_cons_of_mem _ h2)

theorem kwFoldAll_keys (sw : List String) (rake : String → List (String × ℚ)) :
    ∀ (docs : List Document) (n : Nat) (m : List (String × List (Nat × ℚ))) (a : String),
      a ∈ ((List.enumFrom n docs).foldl
          (fun m p => (extractKeywords sw rake p.2).foldl
            (fun m kv => kwInsert m kv.1 (p.1, kv.2)) m) m).map Prod.fst →
      a ∈ m.map Prod.fst ∨ ∃ d ∈ docs, ∃ q, (a, q) ∈ extractKeywords sw rake d
  | [], n, m, a, h => Or.inl h
  | d :: ds, n, m, a, h => by
    rw [List.enumFrom_cons, List.foldl_cons] at h
    rcases kwFoldAll_keys sw rake ds (n + 1) _ a h with h2 | h2
    · rcases kwFoldDoc_keys _ _ _ _ h2 with h3 | h3
      · exact Or.inl h3
      · obtain ⟨p, hp, hpe⟩ := List.mem_map.mp h3
        exact Or.inr ⟨d, List.mem_cons_self _ _, p.2, by rw [← hpe]; exact hp⟩
    · obtain ⟨d2, hd2, q, hq⟩ := h2
      exact Or.inr ⟨d2, List.mem_cons_of_mem _ hd2, q, hq⟩

/-- Every key of the built keyword map was extracted from some document. -/
theorem buildKwMap_keys (sw : List String) (rake : String → List (String × ℚ))
    (documents : List Document) (a : String)
    (h : a ∈ (buildKwMap sw rake documents).map Prod.fst) :
    ∃ d ∈ documents, ∃ q, (a, q) ∈ extractKeywords sw rake d := by
  unfold buildKwMap at h
  rw [List.enum] at h
  rcases kwFoldAll_keys sw rake documents 0 [] a h with h2 | h2
  · exact absurd h2 (by simp)
  · exact h2

theorem strLe_refl (s : String) : strLe s s = true := by
  unfold strLe strLt
  rw [lexLt_irrefl]
  rfl

/-- When the keys are fed to the FST builder in strictly increasing order,
every insertion succeeds and the builder holds the keys paired with their
dense positions. -/
theorem buildFstAux_ok :
    ∀ (ks : List String) (last : Option String) (acc : List (String × Nat)) (i : Nat),
      ks.Pairwise (fun a b => strLt a b = true) →
      (∀ k ∈ ks, ∀ k', last = some k' → strLt k' k = true) →
      buildFstAux last acc i ks =
        .ok (acc ++ (List.enumFrom i ks).map fun p => (p.2, p.1))
  | [], last, acc, i, _, _ => by simp [buildFstAux, List.enumFrom]
  | k :: rest, last, acc, i, hp, hlast => by
    rw [List.pairwise_cons] at hp
    have hnext : ∀ k2 ∈ rest, ∀ k', some k = some k' → strLt k' k2 = true := by
      intro k2 hk2 k' he
      rw [Option.some_inj] at he
      rw [← he]
      exact hp.1 k2 hk2
    cases last with
    | none =>
      rw [buildFstAux]
      rw [buildFstAux_ok rest (some k) _ (i + 1) hp.2 hnext]
      rw [List.enumFrom_cons, List.map_cons, List.append_assoc]
      rfl
    | some k' =>
      have h := hlast k (List.mem_cons_self _ _) k' rfl
      rw [buildFstAux]
      rw [if_pos h]
      rw [buildFstAux_ok rest (some k) _ (i + 1) hp.2 hnext]
      rw [List.enumFrom_cons, List.map_cons, List.append_assoc]
      rfl

theorem enumFrom_map_swap_mem :
    ∀ (ks : List String) (i : Nat) (k : String) (v : Nat),
      (k, v) ∈ (List.enumFrom i ks).map (fun p => (p.2, p.1)) →
      i ≤ v ∧ v - i < ks.length ∧ ks.getD (v - i) "" = k
  | [], i, k, v, h => by simp [List.enumFrom] at h
  | k0 :: rest, i, k, v, h => by
    rw [List.enumFrom_cons, List.map_cons] at h
    rcases List.mem_cons.mp h with he | h2
    · injection he with he1 he2
      subst he1
      subst he2
      exact ⟨Nat.le_refl _, by simp, by simp⟩
    · have hr := enumFrom_map_swap_mem rest (i + 1) k v h2
      refine ⟨by omega, by simp only [List.length_cons]; omega, ?_⟩
      have hvi : v - i = (v - (i + 1)) + 1 := by omega
      rw [hvi]
      exact hr.2.2

theorem sortedKeywords_perm (kwMap : List (String × List (Nat × ℚ))) :
    (sortedKeywords kwMap).Perm (kwMap.map Prod.fst) := stableSortBy_perm _ _

/-- The sorted distinct keys are pairwise strictly increasing in byte order. -/
theorem sortedKeywords_pairwise {kwMap : List (String × List (Nat × ℚ))}
    (hnd : (kwMap.map Prod.fst).Nodup) :
    (sortedKeywords kwMap).Pairwise (fun a b => strLt a b = true) := by
  unfold sortedKeywords
  have h := @pairwise_stableSortBy _ strLe (fun a b : String => a ≠ b)
    (fun a b => strLe_total a b) (fun a b c h1 h2 => strLe_trans h1 h2) _ hnd
  refine h.imp ?_
  intro a b hab
  by_cases he : a = b
  · subst he
    exact absurd rfl (hab.2 (strLe_refl a))
  · exact strLt_of_strLe_ne hab.1 he

theorem hrefInsert_not_mem :
    ∀ {m : List (String × Nat)} {k : String} {v : Nat},
      k ∉ m.map Prod.fst → hrefInsert m k v = m ++ [(k, v)]
  | [], k, v, _ => rfl
  | (k', v') :: rest, k, v, h => by
    rw [hrefInsert]
    have hk : k' ≠ k := by
      intro e
      exact h (by rw [← e]; exact List.mem_map.mpr ⟨(k', v'), List.mem_cons_self _ _, rfl⟩)
    rw [if_neg hk, hrefInsert_not_mem (fun hmem => h (List.mem_cons_of_mem _ ?_))]
    · rfl
    · simpa using hmem

theorem buildHrefFold :
    ∀ (docs : List Document), (docs.map Document.href).Nodup →
    ∀ (n : Nat) (m : List (String × Nat)), (∀ d ∈ docs, d.href ∉ m.map Prod.fst) →
    (List.enumFrom n docs).foldl (fun m p => hrefInsert m p.2.href p.1) m =
      m ++ (List.enumFrom n docs).map fun p => (p.2.href, p.1)
  | [], _, n, m, _ => by simp [List.enumFrom]
  | d :: ds, hnd, n, m, hfresh => by
    rw [List.enumFrom_cons, List.foldl_cons, List.map_cons]
    rw [List.map_cons, List.nodup_cons] at hnd
    rw [hrefInsert_not_mem (hfresh d (List.mem_cons_self _ _))]
    rw [buildHrefFold ds hnd.2 (n + 1) (m ++ [(d.href, n)]) ?_]
    · rw [List.append_assoc]
      rfl
    · intro d2 hd2
      rw [List.map_append, List.mem_append]
      rintro (h | h)
      · exact hfresh d2 (List.mem_cons_of_mem _ hd2) h
      · simp only [List.map_cons, List.map_nil, List.mem_singleton] at h
        exact hnd.1 (h ▸ List.mem_map.mpr ⟨d2, hd2, rfl⟩)

theorem buildHrefMap_eq (documents : List Document)
    (hnd : (documents.map Document.href).Nodup) :
    buildHrefMap documents = (List.enumFrom 0 documents).map fun p => (p.2.href, p.1) := by
  unfold buildHrefMap
  rw [List.enum]
  rw [buildHrefFold documents hnd 0 [] (fun d _ => by simp)]
  rfl

theorem enumFrom_hrefs_keys :
    ∀ (docs : List Document) (n : Nat),
      (((List.enumFrom n docs).map fun p => (p.2.href, p.1)).map Prod.fst) =
        docs.map Document.href
  | [], _ => rfl
  | d :: ds, n => by
    rw [List.enumFrom_cons, List.map_cons, List.map_cons, List.map_cons,
      enumFrom_hrefs_keys ds (n + 1)]

theorem mem_enumFrom_href :
    ∀ (docs : List Document) (n p : Nat) (hp : p < docs.length),
      ((docs.get ⟨p, hp⟩).href, n + p) ∈ (List.enumFrom n docs).map fun e => (e.2.href, e.1)
  | d :: ds, n, 0, hp => by
    rw [List.enumFrom_cons, List.map_cons]
    exact List.mem_cons_self _ _
  | d :: ds, n, p + 1, hp => by
    rw [List.enumFrom_cons, List.map_cons]
    refine List.mem_cons_of_mem _ ?_
    have h := mem_enumFrom_href ds (n + 1) p (by simpa using hp)
    rw [show n + (p + 1) = (n + 1) + p by omega]
    exact h

/-- With duplicate-free hrefs, `doc_index_map` maps each document's href back
to its input position. -/
theorem lookupHref_buildHrefMap (documents : List Document)
    (hnd : (documents.map Document.href).Nodup) (p : Nat) (hp : p < documents.length) :
    lookupHref (buildHrefMap documents) (hrefAt documents p) = p := by
  unfold lookupHref hrefAt
  rw [buildHrefMap_eq documents hnd]
  have hget : documents.get? p = some (documents.get ⟨p, hp⟩) := List.get?_eq_get hp
  rw [hget]
  simp only [Option.map_some', Option.getD_some]
  have hmem := mem_enumFrom_href documents 0 p hp
  rw [Nat.zero_add] at hmem
  rw [lookup_of_mem_nodup (by rw [enumFrom_hrefs_keys]; exact hnd) hmem]
  rfl

theorem getD_mem {α : Type _} {l : List α} {n : Nat} {d : α} (h : n < l.length) :
    l.getD n d ∈ l := by
  rw [List.getD_eq_getElem l d h]
  exact List.getElem_mem h

/-- `build_index` always succeeds, and its result is determined: the FST
map pairs the sorted distinct keywords with their dense positions, the
posting lists are materialised per sorted keyword, and the column holds the
flattened document strings. -/
theorem build_index_eq (comp : Compressor) (sw : List String)
    (rake : String → List (String × ℚ)) (documents : List Document) :
    build_index comp sw rake documents = .ok
      { fstMap := (List.enumFrom 0 (sortedKeywords (buildKwMap sw rake documents))).map
          fun p => (p.2, p.1)
        keyword_to_documents := (sortedKeywords (buildKwMap sw rake documents)).map
          (postingOf (buildKwMap sw rake documents) (buildHrefMap documents) documents)
        document_strings := FsstStrVec.from_strings comp (docStrings documents) } := by
  unfold build_index
  have hfst := buildFstAux_ok (sortedKeywords (buildKwMap sw rake documents)) none [] 0
    (sortedKeywords_pairwise (buildKwMap_inv sw rake documents).1)
    (fun k _ k' he => nomatch he)
  dsimp only
  rw [hfst]
  rfl

theorem except_eq_ok_of_toOption {α β : Type _} {e : Except α β} {x : β}
    (h : e.toOption = some x) : e = .ok x := by
  cases e with
  | error a => simp [Except.toOption] at h
  | ok b =>
    simp only [Except.toOption, Option.some_inj] at h
    rw [h]

/-- C10: `build_index` never reaches the FST builder's out-of-order error:
the distinct keyword strings, sorted, are inserted in strictly increasing
byte order, so the insertion error (and the `into_inner` failure) is
unreachable and `build_index` returns `Ok` on every input (the `ℚ` score
model captures the claim's non-NaN precondition, under which the
`partial_cmp` unwrap in the posting sort cannot fail either). -/
theorem claim_C10_build_index_ok (comp : Compressor) (sw : List String)
    (rake : String → List (String × ℚ)) (documents : List Document) :
    (build_index comp sw rake documents).isOk = true := by
  rw [build_index_eq comp sw rake documents]
  rfl

/-- C1: after `build_index`, the column store has `4 * |D|` entries, laid
out as the interleaved quadruple `[title, category, href, body]` per
document in input order: `column.get(4i + j)` returns `Some` of the
corresponding field (as UTF-8 bytes). The hypothesis `hcomp` is the
contract of the externally trained FSST compressor: decompression with its
published symbol table undoes compression on the indexed corpus. The
hypothesis `hsz` bounds the compressed column below `2^32` bytes: the
source records each offset as `data.len() as u32` (a wrapping cast,
`src/core/src/lib.rs:33`), and the bound — which holds of any index the
pipeline can ship, since the serialized column is embedded into a wasm32
module whose memory is under 4 GiB — makes that cast lossless. -/
theorem claim_C1_column_layout (comp : Compressor) (sw : List String)
    (rake : String → List (String × ℚ)) (documents : List Document)
    (hcomp : ∀ s ∈ docStrings documents,
      fsstDecompress (symbolTable comp.dict_syms comp.dict_lens) (comp.compress s) = s)
    (hsz : compLen comp (docStrings documents) < 4294967296)
    (I : IndexModel) (hI : build_index comp sw rake documents = .ok I)
    (i : Nat) (hi : i < documents.length) :
    I.document_strings.len = 4 * documents.length ∧
    I.document_strings.get (4 * i) = some (strBytes (documents.get ⟨i, hi⟩).title) ∧
    I.document_strings.get (4 * i + 1) = some (strBytes (documents.get ⟨i, hi⟩).category) ∧
    I.document_strings.get (4 * i + 2) = some (strBytes (documents.get ⟨i, hi⟩).href) ∧
    I.document_strings.get (4 * i + 3) = some (strBytes (documents.get ⟨i, hi⟩).body) := by
  have heq := build_index_eq comp sw rake documents
  rw [hI] at heq
  injection heq with heq
  have hds : I.document_strings = FsstStrVec.from_strings comp (docStrings documents) := by
    rw [heq]
  have hlen4 : (docStrings documents).length = 4 * documents.length :=
    docStrings_length documents
  have hgets := docStrings_getD documents i hi
  have hget : ∀ j : Nat, 4 * i + j < 4 * documents.length →
      I.document_strings.get (4 * i + j) =
        some (fsstDecompress (symbolTable comp.dict_syms comp.dict_lens)
          (comp.compress ((docStrings documents).getD (4 * i + j) []))) := by
    intro j hj
    rw [hds, from_strings_get comp (docStrings documents) (4 * i + j) (by omega) hsz]
  refine ⟨by rw [hds, from_strings_len, hlen4], ?_, ?_, ?_, ?_⟩
  · have h := hget 0 (by omega)
    rw [Nat.add_zero] at h
    have hmem : strBytes (documents.get ⟨i, hi⟩).title ∈ docStrings documents := by
      rw [← hgets.1]
      exact getD_mem (by omega)
    rw [h, hgets.1, hcomp _ hmem]
  · have hmem : strBytes (documents.get ⟨i, hi⟩).category ∈ docStrings documents := by
      rw [← hgets.2.1]
      exact getD_mem (by omega)
    rw [hget 1 (by omega), hgets.2.1, hcomp _ hmem]
  · have hmem : strBytes (documents.get ⟨i, hi⟩).href ∈ docStrings documents := by
      rw [← hgets.2.2.1]
      exact getD_mem (by omega)
    rw [hget 2 (by omega), hgets.2.2.1, hcomp _ hmem]
  · have hmem : strBytes (documents.get ⟨i, hi⟩).body ∈ docStrings documents := by
      rw [← hgets.2.2.2]
      exact getD_mem (by omega)
    rw [hget 3 (by omega), hgets.2.2.2, hcomp _ hmem]

/-- Witness for C1 at a concrete corpus, compressor and index. -/
theorem claim_C1_column_layout_witness :
    (∀ s ∈ docStrings docsW, fsstDecompress (symbolTable escapeCompressor.dict_syms
      escapeCompressor.dict_lens) (escapeCompressor.compress s) = s) ∧
    compLen escapeCompressor (docStrings docsW) < 4294967296 ∧
    build_index escapeCompressor [] rakeNone docsW = .ok builtW ∧
    (builtW.document_strings.len = 4 * docsW.length ∧
     builtW.document_strings.get (4 * 0) = some (strBytes (docsW.get ⟨0, by decide⟩).title) ∧
     builtW.document_strings.get (4 * 0 + 1) =
       some (strBytes (docsW.get ⟨0, by decide⟩).category) ∧
     builtW.document_strings.get (4 * 0 + 2) =
       some (strBytes (docsW.get ⟨0, by decide⟩).href) ∧
     builtW.document_strings.get (4 * 0 + 3) =
       some (strBytes (docsW.get ⟨0, by decide⟩).body)) :=
  ⟨by decide, by decide, except_eq_ok_of_toOption (by decide),
    claim_C1_column_layout escapeCompressor [] rakeNone docsW (by decide) (by decide) builtW
      (except_eq_ok_of_toOption (by decide)) 0 (by decide)⟩

/-- Accessing the built index's FST map: a stored pair `(k, v)` addresses the
`v`-th sorted keyword, and `keyword_to_documents[v]` is the posting list
materialised for `k`. -/
theorem built_fstMap_access (comp : Compressor) (sw : List String)
    (rake : String → List (String × ℚ)) (documents : List Document)
    (I : IndexModel) (hI : build_index comp sw rake documents = .ok I)
    (k : String) (v : Nat) (hkv : (k, v) ∈ I.fstMap) :
    v < (sortedKeywords (buildKwMap sw rake documents)).length ∧
    (sortedKeywords (buildKwMap sw rake documents)).getD v "" = k ∧
    I.keyword_to_documents.getD v [] =
      postingOf (buildKwMap sw rake documents) (buildHrefMap documents) documents k := by
  have heq := build_index_eq comp sw rake documents
  rw [hI] at heq
  injection heq with heq
  subst heq
  have hm := enumFrom_map_swap_mem _ 0 k v hkv
  rw [Nat.sub_zero] at hm
  refine ⟨hm.2.1, hm.2.2, ?_⟩
  have hlen : v < ((sortedKeywords (buildKwMap sw rake documents)).map
      (postingOf (buildKwMap sw rake documents) (buildHrefMap documents) documents)).length := by
    rw [List.length_map]
    exact hm.2.1
  show ((sortedKeywords (buildKwMap sw rake documents)).map
      (postingOf (buildKwMap sw rake documents) (buildHrefMap documents) documents)).getD v [] = _
  rw [List.getD_eq_getElem _ _ hlen, List.getElem_map]
  have hv : v < (sortedKeywords (buildKwMap sw rake documents)).length := hm.2.1
  have hksv : (sortedKeywords (buildKwMap sw rake documents))[v] = k := by
    rw [← List.getD_eq_getElem _ "" hv]
    exact hm.2.2
  rw [hksv]

/-- The posting list materialised for a stored keyword: non-empty, with
stored scores non-increasing, and the image under the `u8` cast of a list
sorted descending by the extracted score with score-ties in ascending
document order. -/
theorem postingOf_spec (sw : List String) (rake : String → List (String × ℚ))
    (documents : List Document) (hnd : (documents.map Document.href).Nodup)
    (k : String) (hk : k ∈ (buildKwMap sw rake documents).map Prod.fst) :
    postingOf (buildKwMap sw rake documents) (buildHrefMap documents) documents k ≠ [] ∧
    (postingOf (buildKwMap sw rake documents) (buildHrefMap documents) documents k).Pairwise
      (fun a b => b.2 ≤ a.2) ∧
    ∃ ql : List (Nat × ℚ),
      postingOf (buildKwMap sw rake documents) (buildHrefMap documents) documents k =
        ql.map (fun e => (e.1, ratToU8 e.2)) ∧
      ql.Pairwise fun a b => b.2 ≤ a.2 ∧ (a.2 ≤ b.2 → a.1 < b.1) := by
  obtain ⟨p, hpl, hpe⟩ := List.mem_map.mp hk
  obtain ⟨k', l⟩ := p
  simp only at hpe
  subst hpe
  have hinv := buildKwMap_inv sw rake documents
  have hlookup : List.lookup k' (buildKwMap sw rake documents) = some l :=
    lookup_of_mem_nodup hinv.1 hpl
  have props := hinv.2 (k', l) hpl
  unfold postingOf
  rw [hlookup]
  simp only [Option.getD_some]
  have htot : ∀ a b : Nat × ℚ, (decide (b.2 ≤ a.2)) = true ∨ (decide (a.2 ≤ b.2)) = true := by
    intro a b
    rcases le_total b.2 a.2 with h | h
    · exact Or.inl (decide_eq_true h)
    · exact Or.inr (decide_eq_true h)
  have htrans : ∀ a b c : Nat × ℚ, (decide (b.2 ≤ a.2)) = true →
      (decide (c.2 ≤ b.2)) = true → (decide (c.2 ≤ a.2)) = true := by
    intro a b c h1 h2
    exact decide_eq_true (le_trans (of_decide_eq_true h2) (of_decide_eq_true h1))
  have hpw := @pairwise_stableSortBy _ (fun a b : Nat × ℚ => decide (b.2 ≤ a.2))
    (fun a b => a.1 < b.1) htot htrans _ props.2.1
  have hperm := stableSortBy_perm (fun a b : Nat × ℚ => decide (b.2 ≤ a.2)) l
  have hbound : ∀ e ∈ stableSortBy (fun a b : Nat × ℚ => decide (b.2 ≤ a.2)) l,
      e.1 < documents.length := fun e he => props.2.2 e (hperm.mem_iff.mp he)
  have hmap : (stableSortBy (fun a b : Nat × ℚ => decide (b.2 ≤ a.2)) l).map
      (fun e => (lookupHref (buildHrefMap documents) (hrefAt documents e.1), ratToU8 e.2)) =
      (stableSortBy (fun a b : Nat × ℚ => decide (b.2 ≤ a.2)) l).map
        (fun e => (e.1, ratToU8 e.2)) :=
    List.map_congr_left fun e he => by
      rw [lookupHref_buildHrefMap documents hnd e.1 (hbound e he)]
  rw [hmap]
  have hsne : stableSortBy (fun a b : Nat × ℚ => decide (b.2 ≤ a.2)) l ≠ [] := by
    intro he
    rw [he] at hperm
    exact props.1 (hperm.symm.eq_nil)
  refine ⟨by simpa using hsne, ?_, ?_⟩
  · rw [List.pairwise_map]
    refine hpw.imp ?_
    intro a b hab
    exact ratToU8_mono (of_decide_eq_true hab.1)
  · refine ⟨stableSortBy (fun a b : Nat × ℚ => decide (b.2 ≤ a.2)) l, rfl, ?_⟩
    refine hpw.imp ?_
    intro a b hab
    exact ⟨of_decide_eq_true hab.1, fun h => hab.2 (decide_eq_true h)⟩

/-- C4 (amended): for duplicate-free hrefs and non-NaN scores, every stored
keyword's posting list is non-empty and sorted with stored `u8` scores
non-increasing; it is the `u8`-cast image of the `f64`-sorted list, whose
ties (equal extracted scores) are in ascending `doc_index` order. Ties of
the stored `u8` scores that arise from distinct `f64` scores are NOT in
ascending `doc_index` order in general (see the counterexample). -/
theorem claim_C4_posting_order (comp : Compressor) (sw : List String)
    (rake : String → List (String × ℚ)) (documents : List Document)
    (hnd : (documents.map Document.href).Nodup)
    (I : IndexModel) (hI : build_index comp sw rake documents = .ok I)
    (k : String) (v : Nat) (hkv : (k, v) ∈ I.fstMap) :
    I.keyword_to_documents.getD v [] ≠ [] ∧
    (I.keyword_to_documents.getD v []).Pairwise (fun a b => b.2 ≤ a.2) ∧
    ∃ ql : List (Nat × ℚ),
      I.keyword_to_documents.getD v [] = ql.map (fun e => (e.1, ratToU8 e.2)) ∧
      ql.Pairwise fun a b => b.2 ≤ a.2 ∧ (a.2 ≤ b.2 → a.1 < b.1) := by
  have hacc := built_fstMap_access comp sw rake documents I hI k v hkv
  rw [hacc.2.2]
  refine postingOf_spec sw rake documents hnd k ?_
  have hkmem : k ∈ sortedKeywords (buildKwMap sw rake documents) := by
    rw [← hacc.2.1]
    exact getD_mem hacc.1
  exact (sortedKeywords_perm (buildKwMap sw rake documents)).mem_iff.mp hkmem

/-- Witness for C4 (amended) at a concrete build. -/
theorem claim_C4_posting_order_witness :
    (docsW.map Document.href).Nodup ∧
    build_index escapeCompressor [] rakeNone docsW = .ok builtW ∧
    ("kw", 0) ∈ builtW.fstMap ∧
    (builtW.keyword_to_documents.getD 0 [] ≠ [] ∧
     (builtW.keyword_to_documents.getD 0 []).Pairwise (fun a b => b.2 ≤ a.2) ∧
     ∃ ql : List (Nat × ℚ),
       builtW.keyword_to_documents.getD 0 [] = ql.map (fun e => (e.1, ratToU8 e.2)) ∧
       ql.Pairwise fun a b => b.2 ≤ a.2 ∧ (a.2 ≤ b.2 → a.1 < b.1)) :=
  ⟨by decide, except_eq_ok_of_toOption (by decide), by decide,
   claim_C4_posting_order escapeCompressor [] rakeNone docsW (by decide) builtW
     (except_eq_ok_of_toOption (by decide)) "kw" 0 (by decide)⟩

/-- Counterexample to C4 as stated: with extracted scores 3.25 and 3.5 for
the shared keyword `zz`, both stored scores truncate to 3, and the entries
stand in descending document order `[(1, 3), (0, 3)]` — an equal-score pair
not in ascending `doc_index` order. -/
theorem claim_C4_posting_order_cx :
    build_index escapeCompressor [] rakeC4 docsC4 = .ok builtC4 ∧
    ¬ (∀ p ∈ builtC4.fstMap,
        builtC4.keyword_to_documents.getD p.2 [] ≠ [] ∧
        (builtC4.keyword_to_documents.getD p.2 []).Pairwise
          fun a b => b.2 < a.2 ∨ (a.2 = b.2 ∧ a.1 < b.1)) :=
  ⟨except_eq_ok_of_toOption (by decide), by decide⟩

/-- C9 (amended): every key of the built FST is the normalization image
`normalizeWord w` of some source token `w` (keys from explicit document
keywords and title words, which the source trims and then lower-cases) or
the bare lower-casing `strToLower p` of some RAKE body phrase `p`, whose
leading and trailing non-alphanumerics are NOT stripped (see the
counterexample). The dichotomy is structural: it mirrors exactly the
transformation each extraction pass applies, and its proof never unfolds
the character tables inside `normalizeWord`/`strToLower`, so it is
insensitive to the ASCII modelling of the Unicode character classes. -/
theorem claim_C9_key_normalization (comp : Compressor) (sw : List String)
    (rake : String → List (String × ℚ)) (documents : List Document)
    (I : IndexModel) (hI : build_index comp sw rake documents = .ok I)
    (k : String) (v : Nat) (hkv : (k, v) ∈ I.fstMap) :
    (∃ w, k = normalizeWord w) ∨
      ∃ d ∈ documents, ∃ p q, (p, q) ∈ rake d.body ∧ k = strToLower p := by
  have hacc := built_fstMap_access comp sw rake documents I hI k v hkv
  have hkmem : k ∈ sortedKeywords (buildKwMap sw rake documents) := by
    rw [← hacc.2.1]
    exact getD_mem hacc.1
  have hkey := (sortedKeywords_perm (buildKwMap sw rake documents)).mem_iff.mp hkmem
  obtain ⟨d, hd, q, hq⟩ := buildKwMap_keys sw rake documents k hkey
  rcases extractKeywords_shape sw rake d (k, q) hq with ⟨w, hw⟩ | ⟨pr, hpr, he⟩
  · left
    exact ⟨w, by simpa using hw⟩
  · right
    exact ⟨d, hd, pr.1, pr.2, hpr, by simpa using he⟩

/-- Witness for C9 (amended) at a concrete build. -/
theorem claim_C9_key_normalization_witness :
    build_index escapeCompressor [] rakeNone docsW = .ok builtW ∧
    ("kw", 0) ∈ builtW.fstMap ∧
    ((∃ w, "kw" = normalizeWord w) ∨
      ∃ d ∈ docsW, ∃ p q, (p, q) ∈ rakeNone d.body ∧ "kw" = strToLower p) :=
  ⟨except_eq_ok_of_toOption (by decide), by decide,
   claim_C9_key_normalization escapeCompressor [] rakeNone docsW builtW
     (except_eq_ok_of_toOption (by decide)) "kw" 0 (by decide)⟩

/-- Counterexample to C9 as stated: the RAKE phrase `-x` is stored
lower-cased but untrimmed, so the FST holds the key `-x`, which differs
from its normalization `x`. -/
theorem claim_C9_key_normalization_cx :
    build_index escapeCompressor [] rakeC9 docsC9 = .ok builtC9 ∧
    ¬ (∀ p ∈ builtC9.fstMap, p.1 = normalizeWord p.1) :=
  ⟨except_eq_ok_of_toOption (by decide), by decide⟩

theorem rankedDocuments_eq (I : IndexModel) (ws : List String) (k : Nat) :
    rankedDocuments I ws k =
      (stableSortBy rankLe (accumulate I.keyword_to_documents
        (stableSortBy lenLe (collectHits I.fstMap ws)))).take k := rfl

theorem rankLe_total (a b : Nat × Nat) : rankLe a b = true ∨ rankLe b a = true := by
  unfold rankLe
  by_cases h : b.2 < a.2 ∨ (a.2 = b.2 ∧ a.1 ≤ b.1)
  · exact Or.inl (decide_eq_true h)
  · refine Or.inr (decide_eq_true ?_)
    omega

theorem rankLe_trans (a b c : Nat × Nat) (h1 : rankLe a b = true) (h2 : rankLe b c = true) :
    rankLe a c = true := by
  unfold rankLe at *
  have g1 := of_decide_eq_true h1
  have g2 := of_decide_eq_true h2
  exact decide_eq_true (by omega)

theorem accumulate_keys_nodup (postings : List (List (Nat × Nat)))
    (hits : List (String × Nat)) :
    ((accumulate postings hits).map Prod.fst).Nodup := by
  have : accumulate postings hits =
      scoreFold [] (hits.flatMap fun h => postings.getD h.2 []) := rfl
  rw [this]
  exact scoreFold_keys_nodup _ (by simp)

theorem mapM_option_length {α β : Type _} (f : α → Option β) :
    ∀ (l : List α) (R : List β), l.mapM f = some R → R.length = l.length
  | [], R, h => by
    have h2 : some ([] : List β) = some R := h
    rw [Option.some_inj] at h2
    rw [← h2]
    rfl
  | x :: xs, R, h => by
    rw [List.mapM_cons] at h
    cases hfx : f x with
    | none =>
      rw [hfx] at h
      have h2 : (none : Option (List β)) = some R := h
      exact absurd h2 (by simp)
    | some y =>
      rw [hfx] at h
      cases hrec : xs.mapM f with
      | none =>
        rw [hrec] at h
        have h2 : (none : Option (List β)) = some R := h
        exact absurd h2 (by simp)
      | some ys =>
        rw [hrec] at h
        have h2 : some (y :: ys) = some R := h
        rw [Option.some_inj] at h2
        rw [← h2, List.length_cons, List.length_cons, mapM_option_length f xs ys hrec]

/-- C2: `search` returns at most `max_results` documents; along the ranked
list the accumulated scores are non-increasing and equal-score entries are
in ascending `doc_index` order. -/
theorem claim_C2_search_ranking (I : IndexModel) (q : String) (k : Nat) :
    (∀ R, search I q k = some R → R.length ≤ k) ∧
    (rankedDocuments I (queryWords q) k).Pairwise
      fun a b => b.2 ≤ a.2 ∧ (a.2 = b.2 → a.1 < b.1) := by
  constructor
  · intro R h
    unfold search searchWithWords at h
    rw [mapM_option_length _ _ _ h, rankedDocuments_eq]
    exact List.length_take_le _ _
  · rw [rankedDocuments_eq]
    have hnd := accumulate_keys_nodup I.keyword_to_documents
      (stableSortBy lenLe (collectHits I.fstMap (queryWords q)))
    have hQ : (accumulate I.keyword_to_documents
        (stableSortBy lenLe (collectHits I.fstMap (queryWords q)))).Pairwise
          fun a b => a.1 ≠ b.1 := by
      have := List.pairwise_map.mp hnd
      exact this
    have hpw := @pairwise_stableSortBy _ rankLe (fun a b => a.1 ≠ b.1)
      rankLe_total rankLe_trans _ hQ
    refine (List.Pairwise.sublist (List.take_sublist _ _) hpw).imp ?_
    intro a b hab
    have g1 := of_decide_eq_true hab.1
    constructor
    · omega
    · intro he
      by_cases hi : a.1 = b.1
      · have : rankLe b a = true := by
          unfold rankLe
          exact decide_eq_true (by omega)
        exact absurd hi (hab.2 this)
      · omega

/-- Witness for C2 at a concrete index and query. -/
theorem claim_C2_search_ranking_witness :
    search idxC8 "ab" 2 = some resW ∧ resW.length ≤ 2 ∧
    (rankedDocuments idxC8 (queryWords "ab") 2).Pairwise
      fun a b => b.2 ≤ a.2 ∧ (a.2 = b.2 → a.1 < b.1) :=
  ⟨by decide, (claim_C2_search_ranking idxC8 "ab" 2).1 resW (by decide),
   (claim_C2_search_ranking idxC8 "ab" 2).2⟩

theorem accumulate_perm {postings : List (List (Nat × Nat))}
    {h1 h2 : List (String × Nat)} (hp : h1.Perm h2) :
    (accumulate postings h1).Perm (accumulate postings h2) := by
  have hc : (h1.flatMap fun h => postings.getD h.2 []).Perm
      (h2.flatMap fun h => postings.getD h.2 []) := hp.flatMap_right _
  have e1 : accumulate postings h1 =
      scoreFold [] (h1.flatMap fun h => postings.getD h.2 []) := rfl
  have e2 : accumulate postings h2 =
      scoreFold [] (h2.flatMap fun h => postings.getD h.2 []) := rfl
  rw [e1, e2]
  apply assoc_perm_of_lookupD_eq (scoreFold_keys_nodup _ (by simp))
    (scoreFold_keys_nodup _ (by simp))
  intro d
  rw [lookupD_scoreFold _ [] (fun p hp => absurd hp (List.not_mem_nil _)) d,
    lookupD_scoreFold _ [] (fun p hp => absurd hp (List.not_mem_nil _)) d]
  simp only [lookupD]
  have hsum : sumFor (h1.flatMap fun h => postings.getD h.2 []) d =
      sumFor (h2.flatMap fun h => postings.getD h.2 []) d := by
    unfold sumFor
    exact ((hc.filter _).map _).sum_eq
  have hmem : d ∈ (h1.flatMap fun h => postings.getD h.2 []).map Prod.fst ↔
      d ∈ (h2.flatMap fun h => postings.getD h.2 []).map Prod.fst :=
    (hc.map Prod.fst).mem_iff
  rw [hsum]
  simp only [hmem]

theorem rankLe_antisymm (a b : Nat × Nat) (h1 : rankLe a b = true) (h2 : rankLe b a = true) :
    a = b := by
  have g1 := of_decide_eq_true h1
  have g2 := of_decide_eq_true h2
  have : a.1 = b.1 ∧ a.2 = b.2 := by omega
  exact Prod.ext this.1 this.2

theorem ranked_eq_of_perm {l1 l2 : List (Nat × Nat)} (hperm : l1.Perm l2) :
    stableSortBy rankLe l1 = stableSortBy rankLe l2 := by
  letI : IsAntisymm (Nat × Nat) (fun a b => rankLe a b = true) := ⟨rankLe_antisymm⟩
  exact List.eq_of_perm_of_sorted
    ((stableSortBy_perm _ l1).trans (hperm.trans (stableSortBy_perm _ l2).symm))
    (sorted_stableSortBy rankLe_total rankLe_trans l1)
    (sorted_stableSortBy rankLe_total rankLe_trans l2)

/-- C6: `search` is a deterministic function of (index, query words as a
set, max_results): any iteration order of the query-word hash set (and,
through the canonicalising final sort, of the score hash map) produces the
identical result list. -/
theorem claim_C6_search_deterministic (I : IndexModel) (k : Nat)
    (ws1 ws2 : List String) (h : ws1.Perm ws2) :
    searchWithWords I ws1 k = searchWithWords I ws2 k := by
  suffices hr : rankedDocuments I ws1 k = rankedDocuments I ws2 k by
    unfold searchWithWords
    rw [hr]
  rw [rankedDocuments_eq, rankedDocuments_eq]
  have hhits : (collectHits I.fstMap ws1).Perm (collectHits I.fstMap ws2) :=
    h.flatMap_right _
  have hsorted : (stableSortBy lenLe (collectHits I.fstMap ws1)).Perm
      (stableSortBy lenLe (collectHits I.fstMap ws2)) :=
    (stableSortBy_perm _ _).trans (hhits.trans (stableSortBy_perm _ _).symm)
  rw [ranked_eq_of_perm (accumulate_perm hsorted)]

/-- Witness for C6 at a concrete index and two word orders. -/
theorem claim_C6_search_deterministic_witness :
    (["a", "b"] : List String).Perm ["b", "a"] ∧
    searchWithWords idxC8 ["a", "b"] 2 = searchWithWords idxC8 ["b", "a"] 2 :=
  ⟨by decide, claim_C6_search_deterministic idxC8 2 ["a", "b"] ["b", "a"] (by decide)⟩

/-- C7 (amended): the empty query's word set is exactly `{""}` (the inserted
full-query term), and the prefix automaton of the empty string matches
every FST key, so the FST lookup yields every keyword exactly once — the
hit list is the whole FST map, not at most one hit. -/
theorem claim_C7_empty_query_hits (I : IndexModel) :
    queryWords "" = [""] ∧ collectHits I.fstMap (queryWords "") = I.fstMap := by
  refine ⟨rfl, ?_⟩
  have hq : collectHits I.fstMap (queryWords "") = hitsForWord I.fstMap "" := by
    show collectHits I.fstMap [""] = hitsForWord I.fstMap ""
    unfold collectHits
    simp
  rw [hq]
  unfold hitsForWord
  apply List.filter_eq_self.mpr
  intro p _
  have hpre : isPrefixB ("" : String).data p.1.data = true := rfl
  rw [hpre, Bool.or_true]

/-- Counterexample to C7 as stated: on a two-keyword index the empty query
produces two keyword hits (every key matches the empty prefix), and the
search returns both documents rather than an empty list. -/
theorem claim_C7_empty_query_hits_cx :
    ¬ ((collectHits idxC7.fstMap (queryWords "")).length ≤ 1) ∧
    (search idxC7 "" 10).map List.length = some 2 :=
  ⟨by decide, by decide⟩

theorem count_eq_one_of_mem_nodup {α : Type _} [BEq α] [LawfulBEq α] :
    ∀ {l : List α} {a : α}, l.Nodup → a ∈ l → l.count a = 1
  | x :: t, a, hnd, ha => by
    rw [List.nodup_cons] at hnd
    rw [List.count_cons]
    rcases List.mem_cons.mp ha with rfl | h
    · rw [if_pos (beq_self_eq_true a), List.count_eq_zero.mpr hnd.1]
    · have hne : x ≠ a := by
        intro he
        rw [← he] at h
        exact hnd.1 h
      rw [if_neg (by simpa using hne), count_eq_one_of_mem_nodup hnd.2 h]

/-- C8 (amended): the `fst` union stream merges the two automata's results
by key, so a keyword matched by both the Levenshtein and the prefix
automaton is retained exactly once per query term (hence its posting list
contributes once, not twice, to the accumulation). -/
theorem claim_C8_union_dedup (m : List (String × Nat)) (w : String) (p : String × Nat)
    (hnd : m.Nodup) (hp : p ∈ m) (hlev : levMatch w p.1 = true)
    (hpre : isPrefixB w.data p.1.data = true) :
    (hitsForWord m w).count p = 1 := by
  unfold hitsForWord
  rw [List.count_filter (by rw [hlev, hpre]; rfl)]
  exact count_eq_one_of_mem_nodup hnd hp

/-- Witness for C8 (amended): the key `ab` is matched by both automata of
the query word `ab` and appears exactly once in the hit list. -/
theorem claim_C8_union_dedup_witness :
    idxC8.fstMap.Nodup ∧ ("ab", 0) ∈ idxC8.fstMap ∧ levMatch "ab" "ab" = true ∧
    isPrefixB "ab".data "ab".data = true ∧
    (hitsForWord idxC8.fstMap "ab").count ("ab", 0) = 1 :=
  ⟨by decide, by decide, by decide, by decide,
   claim_C8_union_dedup idxC8.fstMap "ab" ("ab", 0) (by decide) (by decide) (by decide)
     (by decide)⟩

/-- Counterexample to C8 as stated: the key `ab` is matched by both automata
of the query word `ab`, yet it is retained once, not twice. -/
theorem claim_C8_union_dedup_cx :
    levMatch "ab" "ab" = true ∧ isPrefixB "ab".data "ab".data = true ∧
    ¬ ((hitsForWord idxC8.fstMap "ab").count ("ab", 0) = 2) :=
  ⟨by decide, by decide, by decide⟩

theorem decodeVarint_encodeVarint : ∀ (n : Nat) (r : List Byte),
    decodeVarint (encodeVarint n ++ r) = some (n, r) := by
  intro n
  induction n using Nat.strong_induction_on with
  | _ n ih =>
    intro r
    rw [encodeVarint]
    by_cases h : n < 128
    · rw [dif_pos h, List.singleton_append, decodeVarint]
      rw [if_pos (by simpa using h)]
    · rw [dif_neg h, List.cons_append, decodeVarint]
      rw [if_neg (by simp)]
      rw [ih (n / 128) (Nat.div_lt_self (by omega) (by omega)) r]
      show some (128 + n % 128 - 128 + 128 * (n / 128), r) = some (n, r)
      have hval : 128 + n % 128 - 128 + 128 * (n / 128) = n := by omega
      rw [hval]

theorem decodeByte_enc (b : Byte) (r : List Byte) : decodeByte (encodeByte b ++ r) = some (b, r) :=
  rfl

theorem decodeSym8_enc (s : Sym8) (r : List Byte) :
    decodeSym8 (encodeSym8 s ++ r) = some (s, r) := by
  obtain ⟨b0, b1, b2, b3, b4, b5, b6, b7⟩ := s
  rfl

theorem decodeEntry_enc (e : Nat × Byte) (r : List Byte) :
    decodeEntry (encodeEntry e ++ r) = some (e, r) := by
  obtain ⟨n, b⟩ := e
  unfold encodeEntry decodeEntry
  rw [List.append_assoc, decodeVarint_encodeVarint]
  rfl

theorem decodeListN_enc {α : Type} (dec : List Byte → Option (α × List Byte))
    (enc : α → List Byte) (henc : ∀ a r, dec (enc a ++ r) = some (a, r)) :
    ∀ (l : List α) (r : List Byte),
      decodeListN dec l.length (l.flatMap enc ++ r) = some (l, r)
  | [], r => rfl
  | a :: l, r => by
    rw [List.flatMap_cons, List.append_assoc]
    have step : decodeListN dec (a :: l).length (enc a ++ (l.flatMap enc ++ r)) =
        match dec (enc a ++ (l.flatMap enc ++ r)) with
        | none => none
        | some (x, bs2) =>
          match decodeListN dec l.length bs2 with
          | none => none
          | some (xs, bs3) => some (x :: xs, bs3) := rfl
    rw [step, henc a]
    show (match decodeListN dec l.length (l.flatMap enc ++ r) with
      | none => none
      | some (xs, bs3) => some (a :: xs, bs3)) = some (a :: l, r)
    rw [decodeListN_enc dec enc henc l r]

theorem decodeVec_enc {α : Type} (dec : List Byte → Option (α × List Byte))
    (enc : α → List Byte) (henc : ∀ a r, dec (enc a ++ r) = some (a, r))
    (l : List α) (r : List Byte) : decodeVec dec (encodeVec enc l ++ r) = some (l, r) := by
  unfold encodeVec decodeVec
  rw [List.append_assoc, decodeVarint_encodeVarint]
  show decodeListN dec l.length (l.flatMap enc ++ r) = some (l, r)
  exact decodeListN_enc dec enc henc l r

theorem decodeFsst_enc (v : FsstStrVec) (r : List Byte) :
    decodeFsst (encodeFsst v ++ r) = some (v, r) := by
  obtain ⟨syms, lens, offs, dat⟩ := v
  unfold encodeFsst decodeFsst
  rw [List.append_assoc, List.append_assoc, List.append_assoc]
  rw [decodeVec_enc decodeSym8 encodeSym8 decodeSym8_enc]
  show (match decodeVec decodeByte (encodeVec encodeByte lens ++
      (encodeVec encodeVarint offs ++ (encodeVec encodeByte dat ++ r))) with
    | none => none
    | some (lens2, bs2) =>
      match decodeVec decodeVarint bs2 with
      | none => none
      | some (offs2, bs3) =>
        match decodeVec decodeByte bs3 with
        | none => none
        | some (dat2, bs4) =>
          some ((⟨syms, lens2, offs2, dat2⟩ : FsstStrVec), bs4)) =
    some ((⟨syms, lens, offs, dat⟩ : FsstStrVec), r)
  rw [decodeVec_enc decodeByte encodeByte decodeByte_enc]
  show (match decodeVec decodeVarint (encodeVec encodeVarint offs ++
      (encodeVec encodeByte dat ++ r)) with
    | none => none
    | some (offs2, bs3) =>
      match decodeVec decodeByte bs3 with
      | none => none
      | some (dat2, bs4) =>
        some ((⟨syms, lens, offs2, dat2⟩ : FsstStrVec), bs4)) =
    some ((⟨syms, lens, offs, dat⟩ : FsstStrVec), r)
  rw [decodeVec_enc decodeVarint encodeVarint decodeVarint_encodeVarint]
  show (match decodeVec decodeByte (encodeVec encodeByte dat ++ r) with
    | none => none
    | some (dat2, bs4) =>
      some ((⟨syms, lens, offs, dat2⟩ : FsstStrVec), bs4)) =
    some ((⟨syms, lens, offs, dat⟩ : FsstStrVec), r)
  rw [decodeVec_enc decodeByte encodeByte decodeByte_enc]

/-- Postcard round-trip on the full serialized `Index`. -/
theorem index_from_to (I : Index) : Index.from_bytes (Index.to_bytes I) = some I := by
  obtain ⟨fstB, ds, kd⟩ := I
  unfold Index.to_bytes Index.from_bytes
  rw [List.append_assoc]
  rw [decodeVec_enc decodeByte encodeByte decodeByte_enc]
  show (match decodeFsst (encodeFsst ds ++ encodeVec (encodeVec encodeEntry) kd) with
    | none => none
    | some (ds2, bs2) =>
      match decodeVec (decodeVec decodeEntry) bs2 with
      | none => none
      | some (kd2, _) => some ((⟨fstB, ds2, kd2⟩ : Index))) =
    some ((⟨fstB, ds, kd⟩ : Index))
  rw [show encodeVec (encodeVec encodeEntry) kd =
    encodeVec (encodeVec encodeEntry) kd ++ ([] : List Byte) from (List.append_nil _).symm]
  rw [decodeFsst_enc]
  show (match decodeVec (decodeVec decodeEntry)
      (encodeVec (encodeVec encodeEntry) kd ++ ([] : List Byte)) with
    | none => none
    | some (kd2, _) => some ((⟨fstB, ds, kd2⟩ : Index))) =
    some ((⟨fstB, ds, kd⟩ : Index))
  rw [decodeVec_enc (decodeVec decodeEntry) (encodeVec encodeEntry)
    (fun a r => decodeVec_enc decodeEntry encodeEntry decodeEntry_enc a r)]

/-- C3: decoding the encoding of any serialized `Index` yields an index
indistinguishable under the public operations — indeed structurally equal,
so the column store's `len` and `get` agree at every position and `search`
returns the same result list for every query and `max_results`. -/
theorem claim_C3_serde_roundtrip (I : Index) :
    ∃ J, Index.from_bytes (Index.to_bytes I) = some J ∧
      J.document_strings.len = I.document_strings.len ∧
      (∀ n, J.document_strings.get n = I.document_strings.get n) ∧
      (∀ fstNew q k, Index.search fstNew J q k = Index.search fstNew I q k) :=
  ⟨I, index_from_to I, rfl, fun _ => rfl, fun _ _ _ => rfl⟩

/-- C5: the assembler declares `initial = old_pages + len/65536 + 1` pages
(integer division, the `+1` unconditional — also when the length is an exact
multiple of 65536) and appends one active data segment at offset
`i32.const (old_pages * 65536)` carrying the serialized index, after all
existing segments. The hypothesis `old_pages < 32768` (initial memory under
2 GiB, true of any wasm32 module the embedded runtime produces) makes the
source's `u64 → i32` cast of the byte offset lossless. -/
theorem claim_C5_assembler_layout (oldPages : Nat) (segments : List WasmDataSegment)
    (dataCount : Option Nat) (baseAddr lenAddr : Int) (rawIndex : List Byte)
    (hpages : oldPages < 32768) (out : AssembleOutput)
    (h : assemble oldPages segments dataCount baseAddr lenAddr rawIndex = some out) :
    out.newPages = oldPages + rawIndex.length / 65536 + 1 ∧
    out.dataSegments.getLast? =
      some (.active 0 (some ((oldPages * 65536 : Nat) : Int)) rawIndex) := by
  unfold assemble at h
  dsimp only at h
  cases hm : segments.mapM (patchSegment baseAddr lenAddr (oldPages * 65536)
      rawIndex.length) with
  | none =>
    rw [hm] at h
    have h2 : (none : Option AssembleOutput) = some out := h
    exact absurd h2 (by simp)
  | some patched =>
    rw [hm] at h
    have h2 : some ((⟨oldPages + rawIndex.length / 65536 + 1,
        patched ++ [.active 0 (some (toI32 (oldPages * 65536))) rawIndex],
        dataCount.map (· + 1)⟩ : AssembleOutput)) = some out := h
    rw [Option.some_inj] at h2
    have htoI32 : toI32 (oldPages * 65536) = ((oldPages * 65536 : Nat) : Int) := by
      unfold toI32
      have hlt : oldPages * 65536 < 4294967296 := by omega
      rw [Nat.mod_eq_of_lt hlt]
      rw [if_pos (by omega)]
    rw [← h2]
    refine ⟨rfl, ?_⟩
    rw [htoI32]
    exact List.getLast?_concat _

/-- Witness for C5 at concrete assembler inputs. -/
theorem claim_C5_assembler_layout_witness :
    (1 : Nat) < 32768 ∧
    assemble 1 [] (some 0) 0 4 [⟨7, by omega⟩] =
      some ⟨2, [.active 0 (some 65536) [⟨7, by omega⟩]], some 1⟩ ∧
    ((⟨2, [.active 0 (some 65536) [⟨7, by omega⟩]], some 1⟩ : AssembleOutput).newPages =
        1 + ([(⟨7, by omega⟩ : Byte)] : List Byte).length / 65536 + 1 ∧
      (⟨2, [.active 0 (some 65536) [⟨7, by omega⟩]], some 1⟩ :
          AssembleOutput).dataSegments.getLast? =
        some (.active 0 (some ((1 * 65536 : Nat) : Int)) [⟨7, by omega⟩])) :=
  ⟨by decide, by decide,
   claim_C5_assembler_layout 1 [] (some 0) 0 4 [⟨7, by omega⟩] (by decide) _ (by decide)⟩
